import Mathlib

/-!
dchest/stemmer: the English (Porter2) and Dutch Snowball stemmers

A shallow embedding of `porter2/porter2.go` and `dutch/dutch.go`.

* A word buffer (`[]int` / `[]rune`) is a `List Char`: the code points obtained
  by decoding the Go string.  The result of `Stem` is the list of code points of the
  returned string.
* Go `int` values (indices, region boundaries, the `-1` of a failed suffix
  search) are `Int`.
* Every index expression `s[i]`, slice expression `s[:i]`, `s[i:]` and element
  assignment of the source is a *checked* access (`idx`, `sliceTo`, `sliceFrom`,
  `setAt`) that yields `none` where Go would raise a run-time failure.  A slice
  bound is checked against `len(s)`, which is stricter than Go (Go checks it against
  the capacity).  All functions that touch the buffer therefore live in `Option`,
  and `&&` / `||` are evaluated left to right with short-circuit, as in Go.
* Counted `for` loops are recursive functions whose first argument is the number of
  iterations left (or, for a downward loop, the loop index plus one); `range` loops
  over a table are recursive functions over the table.
* `strings.ToLower` belongs to the Go standard library, not to this repository;
  it acts code point by code point and is taken as a parameter
  `lower : Char → Char`.
-/

set_option maxRecDepth 100000
set_option maxHeartbeats 4000000

/-! ## Checked buffer access and the functions shared by both packages -/

/-- Index expression `s[i]`: fails when `i` is negative or `i ≥ len(s)`. -/
def idx (s : List Char) (i : Int) : Option Char :=
  if 0 ≤ i then s[i.toNat]? else none

/-- Slice expression `s[:i]`: fails when `i` is negative or `i > len(s)`. -/
def sliceTo (s : List Char) (i : Int) : Option (List Char) :=
  if 0 ≤ i ∧ i ≤ (s.length : Int) then some (s.take i.toNat) else none

/-- Slice expression `s[i:]`: fails when `i` is negative or `i > len(s)`. -/
def sliceFrom (s : List Char) (i : Int) : Option (List Char) :=
  if 0 ≤ i ∧ i ≤ (s.length : Int) then some (s.drop i.toNat) else none

/-- Assignment `s[i] = c`: fails when `i` is negative or `i ≥ len(s)`. -/
def setAt (s : List Char) (i : Int) (c : Char) : Option (List Char) :=
  if 0 ≤ i ∧ i < (s.length : Int) then some (s.set i.toNat c) else none

/-- The apostrophe, code point 39. -/
def apostrophe : Char := Char.ofNat 39

/-- The loop of `suffixPos`: `for i := len(suf)-1; i >= 0; i-- { if suf[i] != s[j]
{ return -1 }; j-- }`.  The counter is `i + 1`; the result says whether the loop
ran to completion. -/
def suffixPosLoop (s suf : List Char) : Nat → Int → Option Bool
  | 0, _ => some true
  | i + 1, j => do
      let a ← idx suf (i : Int)
      let b ← idx s j
      if a != b then some false else suffixPosLoop s suf i (j - 1)

/-- Source `suffixPos` (porter2.go:23, dutch.go:20): the start of `suf` in `s` when
`s` ends with `suf`, otherwise `-1`. -/
def suffixPos (s suf : List Char) : Option Int :=
  if s.length < suf.length then some (-1)
  else do
    let ok ← suffixPosLoop s suf suf.length ((s.length : Int) - 1)
    if ok then some ((s.length : Int) - (suf.length : Int)) else some (-1)

/-- The value `suffixPos` returns, as a pure function. -/
def suffixIndex (s suf : List Char) : Int :=
  if suf.isSuffixOf s then (s.length : Int) - (suf.length : Int) else -1

/-- A word made of the letters `a` ... `z` only (code points 97 to 122). -/
def isLowerAscii (w : List Char) : Bool :=
  w.all (fun c => decide (97 ≤ c.toNat) && decide (c.toNat ≤ 122))

/-- The condition of the region scan in the words of the specification: position `i`
holds a vowel and position `i + 1` exists and holds a non-vowel. -/
def vowelThenNon (isV : Char → Bool) (s : List Char) (i : Nat) : Bool :=
  match s[i]?, s[i + 1]? with
  | some a, some b => isV a && !isV b
  | _, _ => false

/-- The first entry of a table that is a suffix of the buffer: the entry a table loop
stops at. -/
def firstMatch (table : List (List Char)) (s : List Char) : Option (List Char) :=
  table.find? (fun suf => suf.isSuffixOf s)

/-- No entry of the table is preceded by one of its own proper suffixes. -/
def suffixOrdered : List (List Char) → Bool
  | [] => true
  | e :: rest =>
      rest.all (fun f => !(e.isSuffixOf f && decide (e.length < f.length))) &&
        suffixOrdered rest

/-! ## English: `porter2/porter2.go` -/

namespace porter2

/-- Source `removeSuffix` (porter2.go:37). -/
def removeSuffix (s suf : List Char) : Option (List Char) := do
  let i ← suffixPos s suf
  if i != -1 then sliceTo s i else some s

/-- Source `isVowel` (porter2.go:45). -/
def isVowel (r : Char) : Bool :=
  r == 'a' || r == 'e' || r == 'i' || r == 'o' || r == 'u' || r == 'y'

/-- Source `hasVowelBeforePos` (porter2.go:53): `for i := pos; i >= 0; i--`.
The counter is `i + 1`, so the call for `pos` is `hasVowelBeforeLoop s (pos+1)`. -/
def hasVowelBeforeLoop (s : List Char) : Nat → Option Bool
  | 0 => some false
  | i + 1 => do
      let c ← idx s (i : Int)
      if isVowel c then some true else hasVowelBeforeLoop s i

/-- Source `hasVowelBeforePos` (porter2.go:53). -/
def hasVowelBeforePos (s : List Char) (pos : Int) : Option Bool :=
  hasVowelBeforeLoop s (pos + 1).toNat

/-- Source `rExceptions` (porter2.go:62). -/
def rExceptions : List (List Char) :=
  ["gener".toList, "commun".toList, "arsen".toList]

/-- The loop of `calcR`: `for i := 0; i < len(s)-1; i++`.  The first argument is
the number of iterations left, `len(s) - 1 - i`. -/
def calcRLoop (s : List Char) : Nat → Int → Option Int
  | 0, _ => some (s.length : Int)
  | n + 1, i => do
      let a ← idx s i
      if isVowel a then do
        let b ← idx s (i + 1)
        if !isVowel b then some (i + 2) else calcRLoop s n (i + 1)
      else calcRLoop s n (i + 1)

/-- Source `calcR` (porter2.go:68). -/
def calcR (s : List Char) : Option Int :=
  calcRLoop s ((s.length : Int) - 1).toNat 0

/-- The body shared by both exits of `getR1R2`: `r2 = r1 + calcR(s[r1:])`. -/
def regionsFrom (s : List Char) (r1 : Int) : Option (Int × Int) := do
  let t ← sliceFrom s r1
  let r ← calcR t
  some (r1, r1 + r)

/-- The loop of `getR1R2` over `rExceptions`; `strings.HasPrefix(string(s), v)` is
the prefix test on code points. -/
def getR1R2Loop (s : List Char) : List (List Char) → Option (Int × Int)
  | [] => do
      let r1 ← calcR s
      regionsFrom s r1
  | v :: vs =>
      if v.isPrefixOf s then regionsFrom s (v.length : Int)
      else getR1R2Loop s vs

/-- Source `getR1R2` (porter2.go:77). -/
def getR1R2 (s : List Char) : Option (Int × Int) :=
  getR1R2Loop s rExceptions

/-- Source `endsWithDouble` (porter2.go:90). -/
def endsWithDouble (s : List Char) : Option Bool :=
  if s.length < 2 then some false
  else do
    let last ← idx s ((s.length : Int) - 1)
    if last == 'b' || last == 'd' || last == 'f' || last == 'g' || last == 'm' ||
        last == 'n' || last == 'p' || last == 'r' || last == 't' then do
      let prev ← idx s ((s.length : Int) - 2)
      if prev == last then some true else some false
    else some false

/-- The short-syllable test `N + v + N` ending at index `i - 1`, written twice in
the source (porter2.go:117 and porter2.go:452):
`!isVowel(s[i-3]) && isVowel(s[i-2]) && !isVowel(last) && last != 'w' && last != 'x'
&& last != 'Y'` with `last := s[i-1]`, evaluated left to right. -/
def shortSyllable (s : List Char) (i : Int) : Option Bool := do
  let last ← idx s (i - 1)
  let a ← idx s (i - 3)
  if isVowel a then some false
  else do
    let b ← idx s (i - 2)
    if !isVowel b then some false
    else some (!isVowel last && last != 'w' && last != 'x' && last != 'Y')

/-- Source `isShortWord` (porter2.go:104). -/
def isShortWord (s : List Char) : Option Bool := do
  let r ← getR1R2 s
  if r.1 != (s.length : Int) then some false
  else
    let i : Int := (s.length : Int)
    let two : Option Bool :=
      if i == 2 then do
        let a ← idx s 0
        if isVowel a then do
          let b ← idx s 1
          some (!isVowel b)
        else some false
      else some false
    do
      let c ← two
      if c then some true
      else if i < 3 then some false
      else shortSyllable s i

/-- Source `step1bWords` (porter2.go:125). -/
def step1bWords : List (List Char) :=
  ["ingly".toList, "edly".toList, "ing".toList, "ed".toList]

/-- Source `step2Words` (porter2.go:132). -/
def step2Words : List (List Char) :=
  ["fulness".toList, "ousness".toList, "iveness".toList, "ational".toList,
   "ization".toList, "tional".toList, "biliti".toList, "lessli".toList,
   "fulli".toList, "ousli".toList, "iviti".toList, "alism".toList,
   "ation".toList, "entli".toList, "aliti".toList, "enci".toList,
   "anci".toList, "abli".toList, "izer".toList, "ator".toList,
   "alli".toList, "bli".toList]

/-- Source `step2Reps` (porter2.go:159). -/
def step2Reps : List (List Char) :=
  ["ful".toList, "ous".toList, "ive".toList, "ate".toList,
   "ize".toList, "tion".toList, "ble".toList, "less".toList,
   "ful".toList, "ous".toList, "ive".toList, "al".toList,
   "ate".toList, "ent".toList, "al".toList, "ence".toList,
   "ance".toList, "able".toList, "ize".toList, "ate".toList,
   "al".toList, "ble".toList]

/-- Source `step3Words` (porter2.go:186). -/
def step3Words : List (List Char) :=
  ["ational".toList, "tional".toList, "alize".toList, "icate".toList,
   "iciti".toList, "ical".toList, "ful".toList, "ness".toList]

/-- Source `step3Reps` (porter2.go:198); it has one entry more than `step3Words`. -/
def step3Reps : List (List Char) :=
  ["ate".toList, "tion".toList, "al".toList, "ic".toList,
   "ic".toList, "ic".toList, [], [], []]

/-- Source `step4Words` (porter2.go:210). -/
def step4Words : List (List Char) :=
  ["ement".toList, "able".toList, "ible".toList, "ance".toList,
   "ence".toList, "ment".toList, "ant".toList, "ent".toList,
   "ism".toList, "ate".toList, "iti".toList, "ous".toList,
   "ive".toList, "ize".toList, "al".toList, "er".toList, "ic".toList]

/-- Source `exceptions1` (porter2.go:231), a map with pairwise distinct keys. -/
def exceptions1 : List (List Char × List Char) :=
  [("skis".toList, "ski".toList), ("skies".toList, "sky".toList),
   ("dying".toList, "die".toList), ("lying".toList, "lie".toList),
   ("tying".toList, "tie".toList),
   ("idly".toList, "idl".toList), ("gently".toList, "gentl".toList),
   ("ugly".toList, "ugli".toList), ("early".toList, "earli".toList),
   ("only".toList, "onli".toList), ("singly".toList, "singl".toList),
   ("sky".toList, "sky".toList), ("news".toList, "news".toList),
   ("howe".toList, "howe".toList),
   ("atlas".toList, "atlas".toList), ("cosmos".toList, "cosmos".toList),
   ("bias".toList, "bias".toList), ("andes".toList, "andes".toList)]

/-- Source `exceptions2` (porter2.go:257): the keys of the map (all values are
`true`). -/
def exceptions2 : List (List Char) :=
  ["inning".toList, "outing".toList, "canning".toList, "herring".toList,
   "earring".toList, "proceed".toList, "exceed".toList, "succeed".toList]

/-- The marking loop of `Stem` (porter2.go:285): `for i := 1; i < len(s); i++
{ if isVowel(s[i-1]) && s[i] == 'y' { s[i] = 'Y' } }`.  The first argument is the
number of iterations left; the buffer is threaded through because the loop reads
positions it has already rewritten. -/
def markYLoop : Nat → Int → List Char → Option (List Char)
  | 0, _, s => some s
  | n + 1, i, s => do
      let a ← idx s (i - 1)
      if isVowel a then do
        let b ← idx s i
        if b == 'y' then do
          let s ← setAt s i 'Y'
          markYLoop n (i + 1) s
        else markYLoop n (i + 1) s
      else markYLoop n (i + 1) s

/-- Step 0 (porter2.go:292): three successive `removeSuffix` calls. -/
def step0 (s : List Char) : Option (List Char) := do
  let s ← removeSuffix s "'s'".toList
  let s ← removeSuffix s "'s".toList
  removeSuffix s "'".toList

/-- Step 1a (porter2.go:297), up to the label `step1b`. -/
def step1a (s : List Char) : Option (List Char) := do
  let i ← suffixPos s "sses".toList
  if i != -1 then do
    let p ← sliceTo s i
    some (p ++ "ss".toList)
  else do
    let i ← suffixPos s "ied".toList
    let i ← (if i == -1 then suffixPos s "ies".toList else some i)
    if i != -1 then do
      let p ← sliceTo s i
      if p.length > 1 then some (p ++ ['i']) else some (p ++ "ie".toList)
    else do
      let a ← suffixPos s "us".toList
      let inert ← (if a != -1 then some true
                   else do
                     let b ← suffixPos s "ss".toList
                     some (b != -1))
      if inert then some s
      else do
        let i ← suffixPos s "s".toList
        if i != -1 then do
          let v ← (if s.length ≥ 3 then hasVowelBeforePos s ((s.length : Int) - 3)
                   else some false)
          if v then sliceTo s i else some s
        else some s

/-- First loop of step 1b (porter2.go:339) over `eed`, `eedly`.  `some none` means
that no suffix matched; `some (some t)` is the `goto step1c` with buffer `t`. -/
def step1bEed (s : List Char) (r1 : Int) : List (List Char) → Option (Option (List Char))
  | [] => some none
  | suf :: rest => do
      let i ← suffixPos s suf
      if i != -1 then
        if i ≥ r1 then do
          let p ← sliceTo s i
          some (some (p ++ "ee".toList))
        else some (some s)
      else step1bEed s r1 rest

/-- The repair after a deletion in step 1b (porter2.go:355-367). -/
def step1bRepair (s : List Char) : Option (List Char) := do
  let a ← suffixPos s "at".toList
  let c ← (if a != -1 then some true
           else do
             let b ← suffixPos s "bl".toList
             if b != -1 then some true
             else do
               let z ← suffixPos s "iz".toList
               some (z != -1))
  if c then some (s ++ ['e'])
  else do
    let d ← endsWithDouble s
    if d then sliceTo s ((s.length : Int) - 1)
    else do
      let w ← isShortWord s
      if w then some (s ++ ['e']) else some s

/-- Second loop of step 1b (porter2.go:348) over `step1bWords`. -/
def step1bDel (s : List Char) : List (List Char) → Option (List Char)
  | [] => some s
  | suf :: rest => do
      let i ← suffixPos s suf
      if i != -1 then do
        let v ← (if s.length > suf.length
                   then hasVowelBeforePos s ((s.length : Int) - (suf.length : Int) - 1)
                   else some false)
        if v then do
          let t ← sliceTo s ((s.length : Int) - (suf.length : Int))
          step1bRepair t
        else some s
      else step1bDel s rest

/-- Step 1b (porter2.go:338), up to the label `step1c`; `r1` is the value computed
before step 0. -/
def step1b (s : List Char) (r1 : Int) : Option (List Char) := do
  let e ← step1bEed s r1 ["eed".toList, "eedly".toList]
  match e with
  | some t => some t
  | none => step1bDel s step1bWords

/-- Step 1c (porter2.go:370). -/
def step1c (s : List Char) : Option (List Char) :=
  if s.length > 2 then do
    let last ← idx s ((s.length : Int) - 1)
    if last == 'y' || last == 'Y' then do
      let prev ← idx s ((s.length : Int) - 2)
      if !isVowel prev then setAt s ((s.length : Int) - 1) 'i' else some s
    else some s
  else some s

/-- The table loops of steps 2 and 3 (porter2.go:385, porter2.go:408); `j` is the
index of the head of the remaining table.  `some none`: no entry matched. -/
def replaceLoop (s : List Char) (r1 : Int) (reps : List (List Char)) :
    List (List Char) → Nat → Option (Option (List Char))
  | [], _ => some none
  | suf :: rest, j => do
      let i ← suffixPos s suf
      if i != -1 then
        if i ≥ r1 then do
          let p ← sliceTo s i
          let rep ← reps[j]?
          some (some (p ++ rep))
        else some (some s)
      else replaceLoop s r1 reps rest (j + 1)

/-- Step 2 (porter2.go:382), up to the label `step3`. -/
def step2 (s : List Char) : Option (List Char) := do
  let r ← getR1R2 s
  let e ← replaceLoop s r.1 step2Reps step2Words 0
  match e with
  | some t => some t
  | none => do
      let i ← suffixPos s "ogi".toList
      if i != -1 && i ≥ r.1 then do
        let c ← idx s (i - 1)
        if c == 'l' then do
          let p ← sliceTo s i
          some (p ++ "og".toList)
        else some s
      else do
        let i ← suffixPos s "li".toList
        if i != -1 && i ≥ r.1 then do
          let c ← idx s (i - 1)
          if c == 'c' || c == 'd' || c == 'e' || c == 'g' || c == 'h' || c == 'k' ||
              c == 'm' || c == 'n' || c == 'r' || c == 't' then sliceTo s i
          else some s
        else some s

/-- Step 3 (porter2.go:406), up to the label `step4`. -/
def step3 (s : List Char) : Option (List Char) := do
  let r ← getR1R2 s
  let e ← replaceLoop s r.1 step3Reps step3Words 0
  match e with
  | some t => some t
  | none => do
      let i ← suffixPos s "ative".toList
      if i != -1 && i ≥ r.2 then sliceTo s i else some s

/-- The table loop of step 4 (porter2.go:423). -/
def deleteLoop (s : List Char) (r2 : Int) : List (List Char) → Option (Option (List Char))
  | [] => some none
  | suf :: rest => do
      let i ← suffixPos s suf
      if i != -1 then
        if i ≥ r2 then do
          let p ← sliceTo s i
          some (some p)
        else some (some s)
      else deleteLoop s r2 rest

/-- Step 4 (porter2.go:421), up to the label `step5`. -/
def step4 (s : List Char) : Option (List Char) := do
  let r ← getR1R2 s
  let e ← deleteLoop s r.2 step4Words
  match e with
  | some t => some t
  | none => do
      let i ← suffixPos s "ion".toList
      if i != -1 && i ≥ r.2 then do
        let c ← idx s (i - 1)
        if c == 's' || c == 't' then sliceTo s i else some s
      else some s

/-- Step 5 (porter2.go:438), up to the label `final`. -/
def step5 (s : List Char) : Option (List Char) := do
  let r ← getR1R2 s
  let i : Int := (s.length : Int) - 1
  let isE ← (if i > 0 then do
               let c ← idx s i
               some (c == 'e')
             else some false)
  if isE then
    if i ≥ r.2 then sliceTo s i
    else if i ≥ r.1 then
      if i < 3 then some s
      else do
        let short ← shortSyllable s i
        if short then some s else sliceTo s i
    else some s
  else do
    let ll ← (if i > 1 && i ≥ r.2 then do
                let c ← idx s i
                if c == 'l' then do
                  let d ← idx s (i - 1)
                  some (d == 'l')
                else some false
              else some false)
    if ll then sliceTo s i else some s

/-- The label `final` (porter2.go:465): every `Y` becomes `y`. -/
def unmark (s : List Char) : List Char :=
  s.map (fun v => if v == 'Y' then 'y' else v)

/-- The part of `Stem` after the length guard (porter2.go:279-471). -/
def stemBody (s : List Char) : Option (List Char) := do
  let c ← idx s 0
  let s ← (if c == apostrophe then sliceFrom s 1 else some s)
  let c ← idx s 0
  let s ← (if c == 'y' then setAt s 0 'Y' else some s)
  let s ← markYLoop ((s.length : Int) - 1).toNat 1 s
  let r ← getR1R2 s
  let s ← step0 s
  let s ← step1a s
  if exceptions2.contains s then some s
  else do
    let s ← step1b s r.1
    let s ← step1c s
    let s ← step2 s
    let s ← step3 s
    let s ← step4 s
    let s ← step5 s
    some (unmark s)

/-- Source `englishStemmer.Stem` (porter2.go:269).  `lower` is the code-point map of
`strings.ToLower`; the input and the result are the code points of the Go
strings. -/
def Stem (lower : Char → Char) (word : List Char) : Option (List Char) :=
  let word := word.map lower
  match exceptions1.lookup word with
  | some rep => some rep
  | none =>
      if word.length ≤ 2 then some word
      else stemBody word

end porter2

/-! ## Dutch: `dutch/dutch.go` -/

namespace dutch

/-- Source `firstSuffixPos` (dutch.go:34). -/
def firstSuffixPos (s : List Char) : List (List Char) → Option Int
  | [] => some (-1)
  | suf :: rest => do
      let i ← suffixPos s suf
      if i ≥ 0 then some i else firstSuffixPos s rest

/-- Source `isVowel` (dutch.go:43). -/
def isVowel (x : Char) : Bool :=
  x == 'a' || x == 'e' || x == 'i' || x == 'o' || x == 'u' || x == 'y' || x == 'è'

/-- Source `isVowelAt` (dutch.go:52). -/
def isVowelAt (s : List Char) (index : Int) : Option Bool :=
  if index < 0 || index ≥ (s.length : Int) then some false
  else do
    let c ← idx s index
    some (isVowel c)

/-- The loop of `calcR`: `for i := 0; i < len(s)-1; i++`.  The first argument is
the number of iterations left, `len(s) - 1 - i`. -/
def calcRLoop (s : List Char) : Nat → Int → Option Int
  | 0, _ => some (s.length : Int)
  | n + 1, i => do
      let a ← isVowelAt s i
      if a then do
        let b ← isVowelAt s (i + 1)
        if !b then some (i + 2) else calcRLoop s n (i + 1)
      else calcRLoop s n (i + 1)

/-- Source `calcR` (dutch.go:59). -/
def calcR (s : List Char) : Option Int :=
  calcRLoop s ((s.length : Int) - 1).toNat 0

/-- Source `adjustR1` (dutch.go:68). -/
def adjustR1 (s : List Char) (r1 : Int) : Int :=
  if r1 ≥ 3 then r1
  else if s.length < 4 then (s.length : Int)
  else 3

/-- Source `getR1R2` (dutch.go:78). -/
def getR1R2 (s : List Char) : Option (Int × Int) := do
  let r1 ← calcR s
  let t ← sliceFrom s r1
  let r ← calcR t
  let r2 := r1 + r
  let r1 := adjustR1 s r1
  some (r1, r2)

/-- Source `hasValidSEnding` (dutch.go:85). -/
def hasValidSEnding (s : List Char) : Option Bool := do
  let last ← idx s ((s.length : Int) - 1)
  if last == 'j' then some false else some (!isVowel last)

/-- Source `hasValidEnEnding` (dutch.go:93). -/
def hasValidEnEnding (s : List Char) : Option Bool := do
  let last ← idx s ((s.length : Int) - 1)
  if isVowel last then some false
  else do
    let i ← suffixPos s "gem".toList
    some (decide (i < 0))

/-- Source `deleteESuffixPrecededByNonVowel` (dutch.go:102). -/
def deleteESuffixPrecededByNonVowel (s : List Char) (r1 : Int) :
    Option (List Char × Bool) :=
  let i : Int := (s.length : Int) - 1
  if i ≥ r1 then do
    let c ← idx s i
    if c == 'e' then do
      let v ← isVowelAt s (i - 1)
      if !v then do
        let p ← sliceTo s i
        some (p, true)
      else some (s, false)
    else some (s, false)
  else some (s, false)

/-- Source `undouble` (dutch.go:110). -/
def undouble (s : List Char) : Option (List Char) :=
  if s.length < 2 then some s
  else do
    let last ← idx s ((s.length : Int) - 1)
    if last == 'k' || last == 'd' || last == 't' then do
      let prev ← idx s ((s.length : Int) - 2)
      if prev == last then sliceTo s ((s.length : Int) - 1) else some s
    else some s

/-- The `switch` of the first loop of `Stem` (dutch.go:130). -/
def foldAccent (c : Char) : Char :=
  if c == 'ä' then 'a'
  else if c == 'ë' then 'e'
  else if c == 'ï' then 'i'
  else if c == 'ö' then 'o'
  else if c == 'ü' then 'u'
  else if c == 'á' then 'a'
  else if c == 'é' then 'e'
  else if c == 'í' then 'i'
  else if c == 'ó' then 'o'
  else if c == 'ú' then 'u'
  else c

/-- The loop at dutch.go:159: `for i, max := 1, len(s); i < max; i++
{ if s[i] == 'y' && isVowelAt(s, i-1) { s[i] = 'Y' } }`.  The first argument is the
number of iterations left. -/
def markYLoop : Nat → Int → List Char → Option (List Char)
  | 0, _, s => some s
  | n + 1, i, s => do
      let c ← idx s i
      if c == 'y' then do
        let v ← isVowelAt s (i - 1)
        if v then do
          let s ← setAt s i 'Y'
          markYLoop n (i + 1) s
        else markYLoop n (i + 1) s
      else markYLoop n (i + 1) s

/-- The loop at dutch.go:165: `for i, max := 1, len(s)-1; i < max; i++
{ if s[i] == 'i' && isVowelAt(s, i-1) && isVowelAt(s, i+1) { s[i] = 'I' } }`.  The
first argument is the number of iterations left. -/
def markILoop : Nat → Int → List Char → Option (List Char)
  | 0, _, s => some s
  | n + 1, i, s => do
      let c ← idx s i
      if c == 'i' then do
        let v ← isVowelAt s (i - 1)
        if v then do
          let w ← isVowelAt s (i + 1)
          if w then do
            let s ← setAt s i 'I'
            markILoop n (i + 1) s
          else markILoop n (i + 1) s
        else markILoop n (i + 1) s
      else markILoop n (i + 1) s

/-- The start of `Stem` (dutch.go:128-169) on the lowercased word: accent folding
and the three marking passes. -/
def prepare (word : List Char) : Option (List Char) := do
  let s := word.map foldAccent
  let first ← (if s.length > 0 then do
                 let c ← idx s 0
                 some (c == 'y')
               else some false)
  let s ← (if first then setAt s 0 'Y' else some s)
  let s ← markYLoop ((s.length : Int) - 1).toNat 1 s
  markILoop ((s.length : Int) - 1 - 1).toNat 1 s

/-- The rule `i >= r1 && hasValidEnEnding(s[:i])`, then `s = s[:i]; s = undouble(s)`
(dutch.go:185 and dutch.go:215); `none` inside means that the condition failed. -/
def deleteEn (s : List Char) (i r1 : Int) : Option (Option (List Char)) :=
  if i ≥ r1 then do
    let p ← sliceTo s i
    let v ← hasValidEnEnding p
    if v then do
      let p ← sliceTo s i
      let u ← undouble p
      some (some u)
    else some none
  else some none

/-- Step 1 (dutch.go:173-199), up to the label `step2`. -/
def step1 (s : List Char) (r1 : Int) : Option (List Char) := do
  let i ← suffixPos s "heden".toList
  if i ≥ 0 then
    if i ≥ r1 then do
      let p ← sliceTo s i
      some (p ++ "heid".toList)
    else some s
  else do
    let i ← firstSuffixPos s ["ene".toList, "en".toList]
    if i ≥ 0 then do
      let d ← deleteEn s i r1
      match d with
      | some u => some u
      | none => some s
    else do
      let i ← firstSuffixPos s ["se".toList, "s".toList]
      if i ≥ 0 then
        if i ≥ r1 then do
          let p ← sliceTo s i
          let v ← hasValidSEnding p
          if v then sliceTo s i else some s
        else some s
      else some s

/-- Step 2 (dutch.go:201-207): the buffer and the flag `step2RemovedE`. -/
def step2 (s : List Char) (r1 : Int) : Option (List Char × Bool) := do
  let r ← deleteESuffixPrecededByNonVowel s r1
  if r.2 then do
    let u ← undouble r.1
    some (u, true)
  else some (r.1, false)

/-- Step 3, `heid` (dutch.go:209-222). -/
def step3Heid (s : List Char) (r1 r2 : Int) : Option (List Char) := do
  let i ← suffixPos s "heid".toList
  if i ≥ r2 then do
    let c ← idx s (i - 1)
    if c != 'c' then do
      let front ← sliceTo s i
      let back ← sliceFrom s (i + 4)
      let k ← suffixPos front "en".toList
      let d ← deleteEn front k r1
      match d with
      | some u => some (u ++ back)
      | none => some (front ++ back)
    else some s
  else some s

/-- The rule `i >= r2 && suffixPos(s[:i], "e") == -1` for the suffix `ig`
(dutch.go:230 and dutch.go:241). -/
def igDeletable (s : List Char) (i r2 : Int) : Option Bool :=
  if i ≥ r2 then do
    let p ← sliceTo s i
    let e ← suffixPos p "e".toList
    some (e == -1)
  else some false

/-- Step 3 from `end`/`ing` on (dutch.go:224-271), up to the label `step4`. -/
def step3Rest (s : List Char) (r1 r2 : Int) (step2RemovedE : Bool) :
    Option (List Char) := do
  let i ← firstSuffixPos s ["end".toList, "ing".toList]
  if i ≥ 0 then
    if i ≥ r2 then do
      let s ← sliceTo s i
      let i ← suffixPos s "ig".toList
      let g ← igDeletable s i r2
      if g then sliceTo s i else undouble s
    else some s
  else do
    let i ← suffixPos s "ig".toList
    if i ≥ 0 then do
      let g ← igDeletable s i r2
      if g then sliceTo s i else some s
    else do
      let i ← suffixPos s "lijk".toList
      if i ≥ 0 then
        if i ≥ r2 then do
          let s ← sliceTo s i
          let r ← deleteESuffixPrecededByNonVowel s r1
          undouble r.1
        else some s
      else do
        let i ← suffixPos s "baar".toList
        if i ≥ 0 then
          if i ≥ r2 then sliceTo s i else some s
        else do
          let i ← suffixPos s "bar".toList
          if i ≥ 0 then
            if step2RemovedE && i ≥ r2 then sliceTo s i else some s
          else some s

/-- Step 4 (dutch.go:273-287): vowel undoubling. -/
def step4 (s : List Char) : Option (List Char) :=
  let l : Int := (s.length : Int)
  if l ≥ 4 then do
    let c ← idx s (l - 4)
    let v1 ← idx s (l - 3)
    let v2 ← idx s (l - 2)
    let d ← idx s (l - 1)
    if v1 == v2 then
      if v1 == 'a' || v1 == 'e' || v1 == 'o' || v1 == 'u' then
        if !isVowel c && !isVowel d && d != 'I' then do
          let front ← sliceTo s (l - 2)
          let back ← sliceFrom s (l - 1)
          some (front ++ back)
        else some s
      else some s
    else some s
  else some s

/-- The last loop of `Stem` (dutch.go:290): `Y` becomes `y`, `I` becomes `i`. -/
def unmark (s : List Char) : List Char :=
  s.map (fun c => if c == 'Y' then 'y' else if c == 'I' then 'i' else c)

/-- Source `dutchStemmer.Stem` (dutch.go:126).  `lower` is the code-point map of
`strings.ToLower`; the input and the result are the code points of the Go
strings. -/
def Stem (lower : Char → Char) (word : List Char) : Option (List Char) := do
  let s ← prepare (word.map lower)
  let r ← getR1R2 s
  let s ← step1 s r.1
  let e ← step2 s r.1
  let s ← step3Heid e.1 r.1 r.2
  let s ← step3Rest s r.1 r.2 e.2
  let s ← step4 s
  some (unmark s)

end dutch

/-! ## Checked access, `suffixPos` and lowercasing: basic facts -/

theorem idx_eq_some (s : List Char) (i : Int) (h0 : 0 ≤ i) (h1 : i < (s.length : Int)) :
    ∃ c, idx s i = some c ∧ s[i.toNat]? = some c := by
  have hlt : i.toNat < s.length := by omega
  exact ⟨s[i.toNat], by simp [idx, h0, List.getElem?_eq_getElem hlt],
    List.getElem?_eq_getElem hlt⟩

theorem sliceTo_eq (s : List Char) (i : Int) (h0 : 0 ≤ i) (h1 : i ≤ (s.length : Int)) :
    sliceTo s i = some (s.take i.toNat) := by
  simp [sliceTo, h0, h1]

theorem sliceFrom_eq (s : List Char) (i : Int) (h0 : 0 ≤ i) (h1 : i ≤ (s.length : Int)) :
    sliceFrom s i = some (s.drop i.toNat) := by
  simp [sliceFrom, h0, h1]

theorem setAt_eq (s : List Char) (i : Int) (c : Char) (h0 : 0 ≤ i)
    (h1 : i < (s.length : Int)) : setAt s i c = some (s.set i.toNat c) := by
  simp [setAt, h0, h1]

/-- A lookback `s[i-1]` behind a matched suffix is in range as soon as the suffix
starts at or after `r1` and `r1` is positive. -/
theorem idx_lookback (s : List Char) (i r : Int) (hr : 1 ≤ r) (hi : r ≤ i)
    (hlen : i < (s.length : Int)) : ∃ c, idx s (i - 1) = some c := by
  obtain ⟨c, hc, -⟩ := idx_eq_some s (i - 1) (by omega) (by omega)
  exact ⟨c, hc⟩

theorem suffixPosLoop_eq (s suf : List Char) (hle : suf.length ≤ s.length) :
    ∀ n : Nat, n ≤ suf.length →
      suffixPosLoop s suf n ((s.length : Int) - (suf.length : Int) + (n : Int) - 1) =
        some (decide (∀ k : Nat, k < n → suf[k]? = s[s.length - suf.length + k]?)) := by
  intro n
  induction n with
  | zero => intro _; simp [suffixPosLoop]
  | succ n ih =>
    intro hn
    have hn1 : n < suf.length := hn
    obtain ⟨a, ha, ha2⟩ := idx_eq_some suf (n : Int) (by omega) (by omega)
    obtain ⟨b, hb, hb2⟩ := idx_eq_some s
      ((s.length : Int) - (suf.length : Int) + ((n + 1 : Nat) : Int) - 1) (by omega) (by omega)
    have hidx : ((s.length : Int) - (suf.length : Int) + ((n + 1 : Nat) : Int) - 1).toNat
        = s.length - suf.length + n := by omega
    rw [hidx] at hb2
    simp only [Int.toNat_ofNat] at ha2
    have hj : (s.length : Int) - (suf.length : Int) + ((n + 1 : Nat) : Int) - 1 - 1
        = (s.length : Int) - (suf.length : Int) + (n : Int) - 1 := by omega
    simp only [suffixPosLoop, ha, hb, Option.bind_eq_bind, Option.some_bind, hj, ih (by omega)]
    by_cases hab : a = b
    · subst hab
      have : (∀ k : Nat, k < n + 1 → suf[k]? = s[s.length - suf.length + k]?) ↔
          (∀ k : Nat, k < n → suf[k]? = s[s.length - suf.length + k]?) := by
        constructor
        · intro h k hk; exact h k (by omega)
        · intro h k hk
          rcases Nat.lt_succ_iff_lt_or_eq.mp hk with hk | hk
          · exact h k hk
          · subst hk; rw [ha2, hb2]
      simp [this]
    · have : ¬ (∀ k : Nat, k < n + 1 → suf[k]? = s[s.length - suf.length + k]?) := by
        intro h
        have := h n (by omega)
        rw [ha2, hb2] at this
        exact hab (Option.some.inj this)
      simp [hab, this]

theorem suffixPos_eq (s suf : List Char) : suffixPos s suf = some (suffixIndex s suf) := by
  unfold suffixPos suffixIndex
  by_cases hlt : s.length < suf.length
  · have : ¬ suf <:+ s := fun h => by have := h.length_le; omega
    simp [hlt, this]
  · have hle : suf.length ≤ s.length := by omega
    have h := suffixPosLoop_eq s suf hle suf.length le_rfl
    have hj : (s.length : Int) - (suf.length : Int) + (suf.length : Int) - 1
        = (s.length : Int) - 1 := by omega
    rw [hj] at h
    have hiff : (∀ k : Nat, k < suf.length → suf[k]? = s[s.length - suf.length + k]?) ↔
        suf <:+ s := by
      rw [List.suffix_iff_eq_drop]
      constructor
      · intro h
        apply List.ext_getElem?
        intro k
        by_cases hk : k < suf.length
        · rw [h k hk, List.getElem?_drop]
        · rw [List.getElem?_eq_none (by omega), List.getElem?_eq_none (by simp; omega)]
      · intro h k _
        conv_lhs => rw [h]
        rw [List.getElem?_drop]
    simp only [if_neg hlt, h, Option.bind_eq_bind, Option.some_bind, List.isSuffixOf_iff_suffix,
      decide_eq_true_eq, hiff]
    by_cases hs : suf <:+ s <;> simp [hs]

theorem suffixIndex_cases (s suf : List Char) :
    (suffixIndex s suf = -1 ∧ ¬ suf <:+ s) ∨
      (suf <:+ s ∧ suf.length ≤ s.length ∧
        suffixIndex s suf = (s.length : Int) - (suf.length : Int)) := by
  unfold suffixIndex
  by_cases hs : suf <:+ s
  · right; exact ⟨hs, hs.length_le, by simp [hs]⟩
  · left; simp [hs]

theorem suffixIndex_bounds (s suf : List Char) :
    suffixIndex s suf = -1 ∨
      (0 ≤ suffixIndex s suf ∧ suffixIndex s suf + (suf.length : Int) = (s.length : Int)) := by
  rcases suffixIndex_cases s suf with ⟨h, -⟩ | ⟨-, hle, h⟩
  · exact Or.inl h
  · right; omega

theorem suffixIndex_range (s suf : List Char) :
    suffixIndex s suf = -1 ∨
      (0 ≤ suffixIndex s suf ∧ suffixIndex s suf ≤ (s.length : Int)) := by
  rcases suffixIndex_bounds s suf with h | h
  · exact Or.inl h
  · right; omega

/-- The bounds of `suffixIndex` for a suffix of known length `n`. -/
theorem suffixIndex_len (s suf : List Char) (n : Nat) (hn : suf.length = n) :
    suffixIndex s suf = -1 ∨
      (0 ≤ suffixIndex s suf ∧ suffixIndex s suf + (n : Int) = (s.length : Int)) := by
  subst hn; exact suffixIndex_bounds s suf

theorem map_lower_fixed (lower : Char → Char)
    (hl : ∀ c : Char, 97 ≤ c.toNat → c.toNat ≤ 122 → lower c = c) :
    ∀ w : List Char, isLowerAscii w = true → w.map lower = w := by
  intro w
  induction w with
  | nil => intro _; rfl
  | cons c w ih =>
    intro h
    simp only [isLowerAscii, List.all_cons, Bool.and_eq_true, decide_eq_true_eq] at h
    have hw : isLowerAscii w = true := h.2
    rw [List.map_cons, hl c h.1.1 h.1.2, ih hw]

theorem toLower_fixes_lower (c : Char) (h1 : 97 ≤ c.toNat) (h2 : c.toNat ≤ 122) :
    Char.toLower c = c := by
  unfold Char.toLower
  simp only []
  split
  · omega
  · rfl

theorem toNat_ofNat_small (m : Nat) (h : m < 55296) : (Char.ofNat m).toNat = m := by
  have hv : m.isValidChar := Or.inl h
  simp only [Char.ofNat, hv, dif_pos, Char.toNat, Char.ofNatAux]
  simp [UInt32.toNat]

theorem toLower_ne_upper_y (c : Char) : Char.toLower c ≠ 'Y' := by
  unfold Char.toLower
  simp only []
  split
  · intro h
    have h2 := congrArg Char.toNat h
    rw [toNat_ofNat_small _ (by omega)] at h2
    have : ('Y' : Char).toNat = 89 := rfl
    omega
  · rename_i hn
    intro h
    apply hn
    rw [h]
    decide

/-! ## English: every step is total -/

namespace porter2

theorem hasVowelBeforeLoop_total (s : List Char) :
    ∀ n : Nat, n ≤ s.length → ∃ b, hasVowelBeforeLoop s n = some b := by
  intro n
  induction n with
  | zero => intro _; exact ⟨false, rfl⟩
  | succ n ih =>
    intro hn
    obtain ⟨c, hc, -⟩ := idx_eq_some s (n : Int) (by omega) (by omega)
    obtain ⟨b, hb⟩ := ih (by omega)
    by_cases hv : isVowel c
    · exact ⟨true, by simp [hasVowelBeforeLoop, hc, hv]⟩
    · exact ⟨b, by simp [hasVowelBeforeLoop, hc, hv, hb]⟩

theorem hasVowelBeforePos_total (s : List Char) (pos : Int) (h : pos < (s.length : Int)) :
    ∃ b, hasVowelBeforePos s pos = some b :=
  hasVowelBeforeLoop_total s _ (by omega)

theorem calcRLoop_spec (s : List Char) :
    ∀ (n : Nat) (i : Int), 0 ≤ i → ((n : Int) + i + 1 ≤ (s.length : Int) ∨ n = 0) →
      ∃ r, calcRLoop s n i = some r ∧ r ≤ (s.length : Int) ∧
        (r = (s.length : Int) ∨ i + 2 ≤ r) := by
  intro n
  induction n with
  | zero => intro i _ _; exact ⟨_, rfl, le_rfl, Or.inl rfl⟩
  | succ n ih =>
    intro i hi h
    have h1 : ((n + 1 : Nat) : Int) + i + 1 ≤ (s.length : Int) := by
      rcases h with h | h
      · exact h
      · omega
    obtain ⟨a, ha, -⟩ := idx_eq_some s i hi (by omega)
    obtain ⟨b, hb, -⟩ := idx_eq_some s (i + 1) (by omega) (by omega)
    obtain ⟨r, hr, hr1, hr2⟩ := ih (i + 1) (by omega) (Or.inl (by omega))
    have hr3 : r = (s.length : Int) ∨ i + 2 ≤ r := by omega
    by_cases hva : isVowel a
    · by_cases hvb : isVowel b
      · exact ⟨r, by simp [calcRLoop, ha, hb, hva, hvb, hr], hr1, hr3⟩
      · exact ⟨i + 2, by simp [calcRLoop, ha, hb, hva, hvb], by omega, Or.inr le_rfl⟩
    · exact ⟨r, by simp [calcRLoop, ha, hva, hr], hr1, hr3⟩

theorem calcR_spec (s : List Char) :
    ∃ r, calcR s = some r ∧ 0 ≤ r ∧ r ≤ (s.length : Int) ∧
      (r = (s.length : Int) ∨ 2 ≤ r) := by
  obtain ⟨r, hr, h1, h2⟩ := calcRLoop_spec s ((s.length : Int) - 1).toNat 0 le_rfl (by omega)
  exact ⟨r, hr, by omega, h1, by omega⟩

theorem regionsFrom_spec (s : List Char) (r1 : Int) (h0 : 0 ≤ r1)
    (h1 : r1 ≤ (s.length : Int)) :
    ∃ r2, regionsFrom s r1 = some (r1, r2) ∧ r1 ≤ r2 ∧ r2 ≤ (s.length : Int) := by
  obtain ⟨r, hr, hr0, hr1, -⟩ := calcR_spec (s.drop r1.toNat)
  refine ⟨r1 + r, by simp [regionsFrom, sliceFrom_eq s r1 h0 h1, hr], by omega, ?_⟩
  rw [List.length_drop] at hr1
  omega

theorem getR1R2Loop_spec (s : List Char) :
    ∀ vs : List (List Char), (∀ v ∈ vs, 1 ≤ v.length) →
      ∃ r1 r2, getR1R2Loop s vs = some (r1, r2) ∧ 0 ≤ r1 ∧ r1 ≤ r2 ∧
        r2 ≤ (s.length : Int) ∧ (s ≠ [] → 1 ≤ r1) := by
  intro vs
  induction vs with
  | nil =>
    intro _
    obtain ⟨r1, hr, h0, h1, h2⟩ := calcR_spec s
    obtain ⟨r2, hr2, h3, h4⟩ := regionsFrom_spec s r1 h0 h1
    refine ⟨r1, r2, by simp [getR1R2Loop, hr, hr2], h0, h3, h4, ?_⟩
    intro hne
    have : 0 < s.length := List.length_pos.mpr hne
    omega
  | cons v vs ih =>
    intro hv
    by_cases hp : v.isPrefixOf s
    · have hle : v.length ≤ s.length := (List.isPrefixOf_iff_prefix.mp hp).length_le
      obtain ⟨r2, hr2, h3, h4⟩ := regionsFrom_spec s (v.length : Int) (by omega) (by omega)
      have := hv v (List.mem_cons_self _ _)
      exact ⟨_, r2, by simp [getR1R2Loop, hp, hr2], by omega, h3, h4, fun _ => by omega⟩
    · obtain ⟨r1, r2, h, hh⟩ := ih (fun w hw => hv w (List.mem_cons_of_mem _ hw))
      exact ⟨r1, r2, by simp [getR1R2Loop, hp, h], hh⟩

theorem getR1R2_spec (s : List Char) :
    ∃ r1 r2, getR1R2 s = some (r1, r2) ∧ 0 ≤ r1 ∧ r1 ≤ r2 ∧
      r2 ≤ (s.length : Int) ∧ (s ≠ [] → 1 ≤ r1) :=
  getR1R2Loop_spec s rExceptions (by decide)

theorem endsWithDouble_total (s : List Char) : ∃ b, endsWithDouble s = some b := by
  unfold endsWithDouble
  split
  · exact ⟨_, rfl⟩
  · obtain ⟨a, ha, -⟩ := idx_eq_some s ((s.length : Int) - 1) (by omega) (by omega)
    obtain ⟨b, hb, -⟩ := idx_eq_some s ((s.length : Int) - 2) (by omega) (by omega)
    simp only [ha, hb, Option.bind_eq_bind, Option.some_bind]
    split_ifs <;> exact ⟨_, rfl⟩

theorem shortSyllable_total (s : List Char) (i : Int) (h3 : 3 ≤ i)
    (hi : i ≤ (s.length : Int)) : ∃ b, shortSyllable s i = some b := by
  obtain ⟨a, ha, -⟩ := idx_eq_some s (i - 1) (by omega) (by omega)
  obtain ⟨b, hb, -⟩ := idx_eq_some s (i - 2) (by omega) (by omega)
  obtain ⟨c, hc, -⟩ := idx_eq_some s (i - 3) (by omega) (by omega)
  simp only [shortSyllable, ha, hb, hc, Option.bind_eq_bind, Option.some_bind]
  split_ifs <;> exact ⟨_, rfl⟩

theorem isShortWord_total (s : List Char) : ∃ b, isShortWord s = some b := by
  obtain ⟨r1, r2, hr, -⟩ := getR1R2_spec s
  simp only [isShortWord, hr, Option.bind_eq_bind, Option.some_bind]
  split
  · exact ⟨_, rfl⟩
  · by_cases h2 : ((s.length : Int) == 2) = true
    · have h2' : (s.length : Int) = 2 := by simpa using h2
      obtain ⟨a, ha, -⟩ := idx_eq_some s 0 (by omega) (by omega)
      obtain ⟨b, hb, -⟩ := idx_eq_some s 1 (by omega) (by omega)
      simp only [h2, ha, hb, if_true, Option.bind_eq_bind, Option.some_bind]
      have h3 : (s.length : Int) < 3 := by omega
      by_cases hva : isVowel a <;> by_cases hvb : isVowel b <;>
        simp [hva, hvb, h3]
    · simp only [h2, Option.bind_eq_bind, Option.some_bind]
      by_cases h3 : (s.length : Int) < 3
      · simp [h3]
      · obtain ⟨b, hb⟩ := shortSyllable_total s (s.length : Int) (by omega) le_rfl
        simp [h3, hb]

theorem removeSuffix_total (s suf : List Char) : ∃ t, removeSuffix s suf = some t := by
  have hb := suffixIndex_bounds s suf
  simp only [removeSuffix, suffixPos_eq, Option.bind_eq_bind, Option.some_bind]
  split
  · rename_i h
    simp only [bne_iff_ne, ne_eq] at h
    exact ⟨_, sliceTo_eq _ _ (by omega) (by omega)⟩
  · exact ⟨_, rfl⟩

theorem step0_total (s : List Char) : ∃ t, step0 s = some t := by
  obtain ⟨a, ha⟩ := removeSuffix_total s "'s'".toList
  obtain ⟨b, hb⟩ := removeSuffix_total a "'s".toList
  obtain ⟨c, hc⟩ := removeSuffix_total b "'".toList
  exact ⟨c, by simp only [step0, ha, hb, hc, Option.bind_eq_bind, Option.some_bind]⟩

theorem step1a_total (s : List Char) : ∃ t, step1a s = some t := by
  have h1 := suffixIndex_range s "sses".toList
  have h2 := suffixIndex_range s "ied".toList
  have h3 := suffixIndex_range s "ies".toList
  have h4 := suffixIndex_range s "s".toList
  simp only [step1a, suffixPos_eq, Option.bind_eq_bind, Option.some_bind]
  repeat' first
    | exact ⟨_, rfl⟩
    | simp only [Option.some_bind, Bool.false_eq_true, if_false, if_true]
    | rw [sliceTo_eq _ _
        (by simp only [bne_iff_ne, ne_eq, beq_iff_eq] at *; omega)
        (by simp only [bne_iff_ne, ne_eq, beq_iff_eq] at *; omega)]
    | (obtain ⟨v, hv⟩ := hasVowelBeforePos_total s ((s.length : Int) - 3) (by omega)
       rw [hv])
    | split

theorem step1bEed_total (s : List Char) (r1 : Int) :
    ∀ sufs : List (List Char), ∃ e, step1bEed s r1 sufs = some e := by
  intro sufs
  induction sufs with
  | nil => exact ⟨_, rfl⟩
  | cons suf rest ih =>
    obtain ⟨e, he⟩ := ih
    have h1 := suffixIndex_range s suf
    simp only [step1bEed, suffixPos_eq, Option.bind_eq_bind, Option.some_bind, he]
    repeat' first
      | exact ⟨_, rfl⟩
      | simp only [Option.some_bind]
      | rw [sliceTo_eq _ _
          (by simp only [bne_iff_ne, ne_eq] at *; omega)
          (by simp only [bne_iff_ne, ne_eq] at *; omega)]
      | split

theorem endsWithDouble_len (s : List Char) (b : Bool) (h : endsWithDouble s = some b)
    (hb : b = true) : 2 ≤ s.length := by
  unfold endsWithDouble at h
  split at h
  · simp_all
  · omega

theorem step1bRepair_total (s : List Char) : ∃ t, step1bRepair s = some t := by
  obtain ⟨d, hd⟩ := endsWithDouble_total s
  obtain ⟨w, hw⟩ := isShortWord_total s
  simp only [step1bRepair, suffixPos_eq, Option.bind_eq_bind, Option.some_bind, hd, hw]
  repeat' first
    | exact ⟨_, rfl⟩
    | simp only [Option.some_bind, Bool.false_eq_true, if_false, if_true]
    | exact ⟨_, sliceTo_eq _ _
          (by have := endsWithDouble_len s d hd (by assumption); omega)
          (by omega)⟩
    | split

theorem step1bDel_total (s : List Char) :
    ∀ sufs : List (List Char), ∃ t, step1bDel s sufs = some t := by
  intro sufs
  induction sufs with
  | nil => exact ⟨_, rfl⟩
  | cons suf rest ih =>
    obtain ⟨e, he⟩ := ih
    simp only [step1bDel, suffixPos_eq, Option.bind_eq_bind, Option.some_bind, he]
    split
    · by_cases hl : s.length > suf.length
      · obtain ⟨v, hv⟩ := hasVowelBeforePos_total s
          ((s.length : Int) - (suf.length : Int) - 1) (by omega)
        obtain ⟨t, ht⟩ := step1bRepair_total (s.take ((s.length : Int) - (suf.length : Int)).toNat)
        simp only [hl, if_true, hv, Option.some_bind,
          sliceTo_eq s ((s.length : Int) - (suf.length : Int)) (by omega) (by omega), ht]
        split <;> exact ⟨_, rfl⟩
      · simp only [hl, if_false, Option.some_bind, Bool.false_eq_true]
        exact ⟨_, rfl⟩
    · exact ⟨_, rfl⟩

theorem step1b_total (s : List Char) (r1 : Int) : ∃ t, step1b s r1 = some t := by
  obtain ⟨e, he⟩ := step1bEed_total s r1 ["eed".toList, "eedly".toList]
  obtain ⟨t, ht⟩ := step1bDel_total s step1bWords
  simp only [step1b, he, ht, Option.bind_eq_bind, Option.some_bind]
  cases e <;> exact ⟨_, rfl⟩

theorem step1c_total (s : List Char) : ∃ t, step1c s = some t := by
  unfold step1c
  split
  · obtain ⟨a, ha, -⟩ := idx_eq_some s ((s.length : Int) - 1) (by omega) (by omega)
    obtain ⟨b, hb, -⟩ := idx_eq_some s ((s.length : Int) - 2) (by omega) (by omega)
    simp only [ha, hb, Option.bind_eq_bind, Option.some_bind,
      setAt_eq s ((s.length : Int) - 1) 'i' (by omega) (by omega)]
    split_ifs <;> exact ⟨_, rfl⟩
  · exact ⟨_, rfl⟩

theorem replaceLoop_total (s : List Char) (r1 : Int) (reps : List (List Char)) :
    ∀ (sufs : List (List Char)) (j : Nat), j + sufs.length ≤ reps.length →
      ∃ e, replaceLoop s r1 reps sufs j = some e := by
  intro sufs
  induction sufs with
  | nil => intro j _; exact ⟨_, rfl⟩
  | cons suf rest ih =>
    intro j hj
    simp only [List.length_cons] at hj
    obtain ⟨e, he⟩ := ih (j + 1) (by omega)
    have h1 := suffixIndex_range s suf
    have hrep : reps[j]? = some reps[j] := List.getElem?_eq_getElem (by omega)
    simp only [replaceLoop, suffixPos_eq, Option.bind_eq_bind, Option.some_bind, he, hrep]
    repeat' first
      | exact ⟨_, rfl⟩
      | simp only [Option.some_bind]
      | rw [sliceTo_eq _ _
          (by simp only [bne_iff_ne, ne_eq] at *; omega)
          (by simp only [bne_iff_ne, ne_eq] at *; omega)]
      | split

theorem deleteLoop_total (s : List Char) (r2 : Int) :
    ∀ sufs : List (List Char), ∃ e, deleteLoop s r2 sufs = some e := by
  intro sufs
  induction sufs with
  | nil => exact ⟨_, rfl⟩
  | cons suf rest ih =>
    obtain ⟨e, he⟩ := ih
    have h1 := suffixIndex_range s suf
    simp only [deleteLoop, suffixPos_eq, Option.bind_eq_bind, Option.some_bind, he]
    repeat' first
      | exact ⟨_, rfl⟩
      | simp only [Option.some_bind]
      | rw [sliceTo_eq _ _
          (by simp only [bne_iff_ne, ne_eq] at *; omega)
          (by simp only [bne_iff_ne, ne_eq] at *; omega)]
      | split

theorem step2_total (s : List Char) : ∃ t, step2 s = some t := by
  obtain ⟨r1, r2, hr, h0, h12, h2, hne⟩ := getR1R2_spec s
  obtain ⟨e, he⟩ := replaceLoop_total s r1 step2Reps step2Words 0 (by decide)
  simp only [step2, hr, he, Option.bind_eq_bind, Option.some_bind, suffixPos_eq]
  cases e with
  | some t => exact ⟨_, rfl⟩
  | none =>
    have h1 := suffixIndex_len s "ogi".toList 3 rfl
    have h3 := suffixIndex_len s "li".toList 2 rfl
    have hpos : s ≠ [] → 1 ≤ r1 := hne
    simp only []
    split
    · rename_i h
      simp only [Bool.and_eq_true, bne_iff_ne, ne_eq, decide_eq_true_eq] at h
      have hr1 := hne (List.length_pos.mp (by omega))
      obtain ⟨c, hc⟩ := idx_lookback s _ r1 hr1 h.2 (by omega)
      simp only [hc, Option.some_bind]
      split
      · rw [sliceTo_eq _ _ (by omega) (by omega)]; exact ⟨_, rfl⟩
      · exact ⟨_, rfl⟩
    · split
      · rename_i h
        simp only [Bool.and_eq_true, bne_iff_ne, ne_eq, decide_eq_true_eq] at h
        have hr1 := hne (List.length_pos.mp (by omega))
        obtain ⟨c, hc⟩ := idx_lookback s _ r1 hr1 h.2 (by omega)
        simp only [hc, Option.some_bind]
        split
        · exact ⟨_, sliceTo_eq _ _ (by omega) (by omega)⟩
        · exact ⟨_, rfl⟩
      · exact ⟨_, rfl⟩

theorem step3_total (s : List Char) : ∃ t, step3 s = some t := by
  obtain ⟨r1, r2, hr, h0, h12, h2, hne⟩ := getR1R2_spec s
  obtain ⟨e, he⟩ := replaceLoop_total s r1 step3Reps step3Words 0 (by decide)
  simp only [step3, hr, he, Option.bind_eq_bind, Option.some_bind, suffixPos_eq]
  cases e with
  | some t => exact ⟨_, rfl⟩
  | none =>
    have h1 := suffixIndex_range s "ative".toList
    simp only []
    split
    · rename_i h
      simp only [Bool.and_eq_true, bne_iff_ne, ne_eq, decide_eq_true_eq] at h
      exact ⟨_, sliceTo_eq _ _ (by omega) (by omega)⟩
    · exact ⟨_, rfl⟩

theorem step4_total (s : List Char) : ∃ t, step4 s = some t := by
  obtain ⟨r1, r2, hr, h0, h12, h2, hne⟩ := getR1R2_spec s
  obtain ⟨e, he⟩ := deleteLoop_total s r2 step4Words
  simp only [step4, hr, he, Option.bind_eq_bind, Option.some_bind, suffixPos_eq]
  cases e with
  | some t => exact ⟨_, rfl⟩
  | none =>
    have h1 := suffixIndex_len s "ion".toList 3 rfl
    simp only []
    split
    · rename_i h
      simp only [Bool.and_eq_true, bne_iff_ne, ne_eq, decide_eq_true_eq] at h
      have hr1 := hne (List.length_pos.mp (by omega))
      obtain ⟨c, hc⟩ := idx_lookback s _ r2 (by omega) h.2 (by omega)
      simp only [hc, Option.some_bind]
      split
      · exact ⟨_, sliceTo_eq _ _ (by omega) (by omega)⟩
      · exact ⟨_, rfl⟩
    · exact ⟨_, rfl⟩

theorem step5_total (s : List Char) : ∃ t, step5 s = some t := by
  obtain ⟨r1, r2, hr, h0, h12, h2, hne⟩ := getR1R2_spec s
  simp only [step5, hr, Option.bind_eq_bind, Option.some_bind]
  by_cases hi : (s.length : Int) - 1 > 0
  · obtain ⟨c, hc, -⟩ := idx_eq_some s ((s.length : Int) - 1) (by omega) (by omega)
    obtain ⟨d, hd, -⟩ := idx_eq_some s ((s.length : Int) - 1 - 1) (by omega) (by omega)
    have hcut := sliceTo_eq s ((s.length : Int) - 1) (by omega) (by omega)
    simp only [hi, if_true, hc, hd, hcut, Option.some_bind]
    split
    · split
      · exact ⟨_, rfl⟩
      · split
        · split
          · exact ⟨_, rfl⟩
          · obtain ⟨b, hb⟩ := shortSyllable_total s ((s.length : Int) - 1) (by omega) (by omega)
            simp only [hb, Option.some_bind]
            split <;> exact ⟨_, rfl⟩
        · exact ⟨_, rfl⟩
    · repeat' first
        | exact ⟨_, rfl⟩
        | simp only [Option.some_bind, Bool.false_eq_true, if_false, if_true]
        | split
  · have hi1 : ¬ ((s.length : Int) - 1 > 1) := by omega
    simp only [hi, hi1, if_false, Option.some_bind, Bool.false_eq_true, decide_False,
      Bool.false_and]
    exact ⟨_, rfl⟩

theorem markYLoop_total :
    ∀ (n : Nat) (i : Int) (s : List Char), 1 ≤ i → i + (n : Int) ≤ (s.length : Int) →
      ∃ t, markYLoop n i s = some t ∧ t.length = s.length := by
  intro n
  induction n with
  | zero => intro i s _ _; exact ⟨s, rfl, rfl⟩
  | succ n ih =>
    intro i s hi hn
    obtain ⟨a, ha, -⟩ := idx_eq_some s (i - 1) (by omega) (by omega)
    obtain ⟨b, hb, -⟩ := idx_eq_some s i (by omega) (by omega)
    have hset := setAt_eq s i 'Y' (by omega) (by omega)
    obtain ⟨t, ht, hlen⟩ := ih (i + 1) s (by omega) (by omega)
    obtain ⟨u, hu, hulen⟩ := ih (i + 1) (s.set i.toNat 'Y') (by omega)
      (by rw [List.length_set]; omega)
    rw [List.length_set] at hulen
    simp only [markYLoop, ha, hb, hset, Option.bind_eq_bind, Option.some_bind]
    split
    · split
      · exact ⟨u, hu, hulen⟩
      · exact ⟨t, ht, hlen⟩
    · exact ⟨t, ht, hlen⟩

theorem Stem_of_fixed (lower : Char → Char) (w : List Char) (h : w.map lower = w) :
    Stem lower w = Stem id w := by
  simp only [Stem, h, List.map_id]

theorem lookup_none_of_short (k : List Char) (hk : k.length ≤ 2) :
    ∀ l : List (List Char × List Char), (∀ p ∈ l, 2 < p.1.length) → l.lookup k = none := by
  intro l
  induction l with
  | nil => intro _; rfl
  | cons p l ih =>
    intro h
    obtain ⟨a, b⟩ := p
    have ha : 2 < a.length := h (a, b) (List.mem_cons_self _ _)
    have hne : (k == a) = false := by
      rw [beq_eq_false_iff_ne]
      intro hka
      rw [hka] at hk
      omega
    rw [List.lookup_cons, hne]
    exact ih (fun q hq => h q (List.mem_cons_of_mem _ hq))

theorem unmark_no_marker (s : List Char) : 'Y' ∉ unmark s := by
  intro h
  simp only [unmark, List.mem_map] at h
  obtain ⟨v, -, hv⟩ := h
  split at hv
  · exact absurd hv (by decide)
  · rename_i hne
    rw [hv] at hne
    exact hne (by decide)

theorem lookup_some_mem (k v : List Char) :
    ∀ l : List (List Char × List Char), l.lookup k = some v → ∃ a, (a, v) ∈ l := by
  intro l
  induction l with
  | nil => intro h; simp at h
  | cons p l ih =>
    intro h
    obtain ⟨a, b⟩ := p
    rw [List.lookup_cons] at h
    split at h
    · cases h
      exact ⟨a, List.mem_cons_self _ _⟩
    · obtain ⟨a', ha'⟩ := ih h
      exact ⟨a', List.mem_cons_of_mem _ ha'⟩

theorem stemBody_spec (s : List Char) (hlen : 2 < s.length) :
    ∃ t, stemBody s = some t ∧ 'Y' ∉ t := by
  obtain ⟨c, hc, -⟩ := idx_eq_some s 0 le_rfl (by omega)
  obtain ⟨s1, hs1, hl1⟩ : ∃ s1, (if c == apostrophe then sliceFrom s 1 else some s) = some s1
      ∧ 2 ≤ s1.length := by
    split
    · exact ⟨_, sliceFrom_eq s 1 (by omega) (by omega), by rw [List.length_drop]; omega⟩
    · exact ⟨s, rfl, by omega⟩
  obtain ⟨d, hd, -⟩ := idx_eq_some s1 0 le_rfl (by omega)
  obtain ⟨s2, hs2, hl2⟩ : ∃ s2, (if d == 'y' then setAt s1 0 'Y' else some s1) = some s2
      ∧ 2 ≤ s2.length := by
    split
    · exact ⟨_, setAt_eq s1 0 'Y' le_rfl (by omega), by rw [List.length_set]; omega⟩
    · exact ⟨s1, rfl, hl1⟩
  obtain ⟨s3, hs3, -⟩ := markYLoop_total ((s2.length : Int) - 1).toNat 1 s2 le_rfl (by omega)
  obtain ⟨r1, r2, hr, -⟩ := getR1R2_spec s3
  obtain ⟨s4, hs4⟩ := step0_total s3
  obtain ⟨s5, hs5⟩ := step1a_total s4
  obtain ⟨s6, hs6⟩ := step1b_total s5 r1
  obtain ⟨s7, hs7⟩ := step1c_total s6
  obtain ⟨s8, hs8⟩ := step2_total s7
  obtain ⟨s9, hs9⟩ := step3_total s8
  obtain ⟨s10, hs10⟩ := step4_total s9
  obtain ⟨s11, hs11⟩ := step5_total s10
  simp only [stemBody, hc, hs1, hd, hs2, hs3, hr, hs4, hs5, hs6, hs7, hs8, hs9, hs10, hs11,
    Option.bind_eq_bind, Option.some_bind]
  split
  · rename_i hex
    have hmem : s5 ∈ exceptions2 := List.elem_iff.mp hex
    have hall : ∀ w ∈ exceptions2, 'Y' ∉ w := by decide
    exact ⟨s5, rfl, hall s5 hmem⟩
  · exact ⟨_, rfl, unmark_no_marker _⟩

theorem Stem_spec (lower : Char → Char) (hY : ∀ c, lower c ≠ 'Y') (word : List Char) :
    ∃ r, Stem lower word = some r ∧ 'Y' ∉ r := by
  unfold Stem
  simp only []
  split
  · rename_i rep hrep
    obtain ⟨a, ha⟩ := lookup_some_mem _ _ _ hrep
    have hall : ∀ p ∈ exceptions1, 'Y' ∉ p.2 := by decide
    exact ⟨rep, rfl, hall _ ha⟩
  · split
    · refine ⟨_, rfl, ?_⟩
      intro h
      obtain ⟨c, -, hc⟩ := List.mem_map.mp h
      exact hY c hc
    · exact stemBody_spec _ (by omega)

end porter2

/-! ## Dutch: every step is total -/

namespace dutch

theorem nl_isVowelAt_total (s : List Char) (i : Int) : ∃ b, isVowelAt s i = some b := by
  unfold isVowelAt
  split
  · exact ⟨_, rfl⟩
  · rename_i h
    simp only [Bool.or_eq_true, decide_eq_true_eq, not_or, not_lt, ge_iff_le, not_le] at h
    obtain ⟨c, hc, -⟩ := idx_eq_some s i h.1 h.2
    simp only [hc, Option.bind_eq_bind, Option.some_bind]
    exact ⟨_, rfl⟩

theorem nl_firstSuffixPos_spec (s : List Char) :
    ∀ sufs : List (List Char), ∃ i, firstSuffixPos s sufs = some i ∧
      (i = -1 ∨ (0 ≤ i ∧ i ≤ (s.length : Int))) := by
  intro sufs
  induction sufs with
  | nil => exact ⟨-1, rfl, Or.inl rfl⟩
  | cons suf rest ih =>
    obtain ⟨i, hi, hb⟩ := ih
    have h1 := suffixIndex_range s suf
    simp only [firstSuffixPos, suffixPos_eq, Option.bind_eq_bind, Option.some_bind, hi]
    split
    · exact ⟨_, rfl, by omega⟩
    · exact ⟨i, rfl, hb⟩

theorem nl_calcRLoop_spec (s : List Char) :
    ∀ (n : Nat) (i : Int), 0 ≤ i → ((n : Int) + i + 1 ≤ (s.length : Int) ∨ n = 0) →
      ∃ r, calcRLoop s n i = some r ∧ r ≤ (s.length : Int) ∧
        (r = (s.length : Int) ∨ i + 2 ≤ r) := by
  intro n
  induction n with
  | zero => intro i _ _; exact ⟨_, rfl, le_rfl, Or.inl rfl⟩
  | succ n ih =>
    intro i hi h
    have h1 : ((n + 1 : Nat) : Int) + i + 1 ≤ (s.length : Int) := by
      rcases h with h | h
      · exact h
      · omega
    obtain ⟨a, ha⟩ := nl_isVowelAt_total s i
    obtain ⟨b, hb⟩ := nl_isVowelAt_total s (i + 1)
    obtain ⟨r, hr, hr1, hr2⟩ := ih (i + 1) (by omega) (Or.inl (by omega))
    have hr3 : r = (s.length : Int) ∨ i + 2 ≤ r := by omega
    simp only [calcRLoop, ha, hb, hr, Option.bind_eq_bind, Option.some_bind]
    split
    · split
      · exact ⟨i + 2, rfl, by omega, Or.inr le_rfl⟩
      · exact ⟨r, rfl, hr1, hr3⟩
    · exact ⟨r, rfl, hr1, hr3⟩

theorem nl_calcR_spec (s : List Char) :
    ∃ r, calcR s = some r ∧ 0 ≤ r ∧ r ≤ (s.length : Int) ∧
      (r = (s.length : Int) ∨ 2 ≤ r) := by
  obtain ⟨r, hr, h1, h2⟩ := nl_calcRLoop_spec s ((s.length : Int) - 1).toNat 0 le_rfl (by omega)
  exact ⟨r, hr, by omega, h1, by omega⟩

theorem nl_getR1R2_spec (s : List Char) :
    ∃ r1 r2, getR1R2 s = some (r1, r2) ∧ 0 ≤ r1 ∧ r1 ≤ r2 ∧ r2 ≤ (s.length : Int) ∧
      (s ≠ [] → 1 ≤ r1) := by
  obtain ⟨a, ha, ha0, ha1, ha2⟩ := nl_calcR_spec s
  obtain ⟨b, hb, hb0, hb1, hb2⟩ := nl_calcR_spec (s.drop a.toNat)
  rw [List.length_drop] at hb1 hb2
  refine ⟨adjustR1 s a, a + b, ?_, ?_, ?_, ?_, ?_⟩
  · simp only [getR1R2, ha, hb, sliceFrom_eq s a ha0 ha1, Option.bind_eq_bind,
      Option.some_bind]
  · unfold adjustR1; split_ifs <;> omega
  · unfold adjustR1; split_ifs <;> omega
  · omega
  · intro hne
    have : 0 < s.length := List.length_pos.mpr hne
    unfold adjustR1; split_ifs <;> omega

theorem nl_hasValidSEnding_total (s : List Char) (h : 1 ≤ s.length) :
    ∃ b, hasValidSEnding s = some b := by
  obtain ⟨c, hc, -⟩ := idx_eq_some s ((s.length : Int) - 1) (by omega) (by omega)
  simp only [hasValidSEnding, hc, Option.bind_eq_bind, Option.some_bind]
  split <;> exact ⟨_, rfl⟩

theorem nl_hasValidEnEnding_total (s : List Char) (h : 1 ≤ s.length) :
    ∃ b, hasValidEnEnding s = some b := by
  obtain ⟨c, hc, -⟩ := idx_eq_some s ((s.length : Int) - 1) (by omega) (by omega)
  simp only [hasValidEnEnding, hc, suffixPos_eq, Option.bind_eq_bind, Option.some_bind]
  split <;> exact ⟨_, rfl⟩

theorem nl_deleteESuffix_total (s : List Char) (r1 : Int) (hr : 0 ≤ r1) :
    ∃ p, deleteESuffixPrecededByNonVowel s r1 = some p := by
  obtain ⟨v, hv⟩ := nl_isVowelAt_total s ((s.length : Int) - 1 - 1)
  unfold deleteESuffixPrecededByNonVowel
  simp only []
  split
  · obtain ⟨c, hc, -⟩ := idx_eq_some s ((s.length : Int) - 1) (by omega) (by omega)
    simp only [hc, hv, sliceTo_eq s ((s.length : Int) - 1) (by omega) (by omega),
      Option.bind_eq_bind, Option.some_bind]
    split_ifs <;> exact ⟨_, rfl⟩
  · exact ⟨_, rfl⟩

theorem nl_undouble_total (s : List Char) : ∃ t, undouble s = some t := by
  unfold undouble
  split
  · exact ⟨_, rfl⟩
  · obtain ⟨a, ha, -⟩ := idx_eq_some s ((s.length : Int) - 1) (by omega) (by omega)
    obtain ⟨b, hb, -⟩ := idx_eq_some s ((s.length : Int) - 2) (by omega) (by omega)
    simp only [ha, hb, sliceTo_eq s ((s.length : Int) - 1) (by omega) (by omega),
      Option.bind_eq_bind, Option.some_bind]
    split_ifs <;> exact ⟨_, rfl⟩

theorem nl_markYLoop_total :
    ∀ (n : Nat) (i : Int) (s : List Char), 1 ≤ i → i + (n : Int) ≤ (s.length : Int) →
      ∃ t, markYLoop n i s = some t ∧ t.length = s.length := by
  intro n
  induction n with
  | zero => intro i s _ _; exact ⟨s, rfl, rfl⟩
  | succ n ih =>
    intro i s hi hn
    obtain ⟨b, hb, -⟩ := idx_eq_some s i (by omega) (by omega)
    obtain ⟨v, hv⟩ := nl_isVowelAt_total s (i - 1)
    have hset := setAt_eq s i 'Y' (by omega) (by omega)
    obtain ⟨t, ht, hlen⟩ := ih (i + 1) s (by omega) (by omega)
    obtain ⟨u, hu, hulen⟩ := ih (i + 1) (s.set i.toNat 'Y') (by omega)
      (by rw [List.length_set]; omega)
    rw [List.length_set] at hulen
    simp only [markYLoop, hv, hb, hset, Option.bind_eq_bind, Option.some_bind]
    split
    · split
      · exact ⟨u, hu, hulen⟩
      · exact ⟨t, ht, hlen⟩
    · exact ⟨t, ht, hlen⟩

theorem nl_markILoop_total :
    ∀ (n : Nat) (i : Int) (s : List Char), 1 ≤ i → i + (n : Int) ≤ (s.length : Int) →
      ∃ t, markILoop n i s = some t ∧ t.length = s.length := by
  intro n
  induction n with
  | zero => intro i s _ _; exact ⟨s, rfl, rfl⟩
  | succ n ih =>
    intro i s hi hn
    obtain ⟨b, hb, -⟩ := idx_eq_some s i (by omega) (by omega)
    obtain ⟨v, hv⟩ := nl_isVowelAt_total s (i - 1)
    obtain ⟨w, hw⟩ := nl_isVowelAt_total s (i + 1)
    have hset := setAt_eq s i 'I' (by omega) (by omega)
    obtain ⟨t, ht, hlen⟩ := ih (i + 1) s (by omega) (by omega)
    obtain ⟨u, hu, hulen⟩ := ih (i + 1) (s.set i.toNat 'I') (by omega)
      (by rw [List.length_set]; omega)
    rw [List.length_set] at hulen
    simp only [markILoop, hv, hw, hb, hset, Option.bind_eq_bind, Option.some_bind]
    split
    · split
      · split
        · exact ⟨u, hu, hulen⟩
        · exact ⟨t, ht, hlen⟩
      · exact ⟨t, ht, hlen⟩
    · exact ⟨t, ht, hlen⟩

theorem nl_prepare_total (word : List Char) :
    ∃ s, prepare word = some s ∧ s.length = word.length := by
  unfold prepare
  simp only []
  have hm : (word.map foldAccent).length = word.length := List.length_map _ _
  by_cases h0 : (word.map foldAccent).length > 0
  · obtain ⟨c, hc, -⟩ := idx_eq_some (word.map foldAccent) 0 le_rfl (by omega)
    have hset := setAt_eq (word.map foldAccent) 0 'Y' le_rfl (by omega)
    simp only [h0, if_true, hc, Option.bind_eq_bind, Option.some_bind]
    obtain ⟨s1, hs1, hl1⟩ : ∃ s1, (if (c == 'y') = true then setAt (word.map foldAccent) 0 'Y'
        else some (word.map foldAccent)) = some s1 ∧ s1.length = word.length := by
      split
      · exact ⟨_, hset, by simp⟩
      · exact ⟨_, rfl, by simp⟩
    obtain ⟨s2, hs2, hl2⟩ := nl_markYLoop_total ((s1.length : Int) - 1).toNat 1 s1 le_rfl
      (by omega)
    obtain ⟨s3, hs3, hl3⟩ := nl_markILoop_total ((s2.length : Int) - 1 - 1).toNat 1 s2 le_rfl
      (by omega)
    simp only [hs1, hs2, hs3, Option.some_bind]
    exact ⟨s3, rfl, by omega⟩
  · have hnil : word = [] := by
      cases word with
      | nil => rfl
      | cons a w => simp at h0
    subst hnil
    exact ⟨[], by decide, rfl⟩

theorem nl_deleteEn_total (s : List Char) (i r1 : Int) (h1 : 1 ≤ r1)
    (hi : i ≤ (s.length : Int)) : ∃ d, deleteEn s i r1 = some d := by
  unfold deleteEn
  split
  · rename_i h
    have hcut := sliceTo_eq s i (by omega) hi
    obtain ⟨v, hv⟩ := nl_hasValidEnEnding_total (s.take i.toNat)
      (by rw [List.length_take]; omega)
    obtain ⟨u, hu⟩ := nl_undouble_total (s.take i.toNat)
    simp only [hcut, hv, hu, Option.bind_eq_bind, Option.some_bind]
    split <;> exact ⟨_, rfl⟩
  · exact ⟨_, rfl⟩

theorem nl_step1_total (s : List Char) (r1 : Int) (h1 : 1 ≤ r1) :
    ∃ t, step1 s r1 = some t := by
  have hh := suffixIndex_range s "heden".toList
  obtain ⟨i, hi, hib⟩ := nl_firstSuffixPos_spec s ["ene".toList, "en".toList]
  obtain ⟨j, hj, hjb⟩ := nl_firstSuffixPos_spec s ["se".toList, "s".toList]
  obtain ⟨d, hd⟩ := nl_deleteEn_total s i r1 h1 (by omega)
  simp only [step1, suffixPos_eq, hi, hj, hd, Option.bind_eq_bind, Option.some_bind]
  split
  · split
    · rw [sliceTo_eq _ _ (by omega) (by omega)]; exact ⟨_, rfl⟩
    · exact ⟨_, rfl⟩
  · split
    · cases d <;> exact ⟨_, rfl⟩
    · split
      · split
        · have hcut := sliceTo_eq s j (by omega) (by omega)
          obtain ⟨v, hv⟩ := nl_hasValidSEnding_total (s.take j.toNat)
            (by rw [List.length_take]; omega)
          simp only [hcut, hv, Option.some_bind]
          split <;> exact ⟨_, rfl⟩
        · exact ⟨_, rfl⟩
      · exact ⟨_, rfl⟩

theorem nl_step2_total (s : List Char) (r1 : Int) (h0 : 0 ≤ r1) :
    ∃ e, step2 s r1 = some e := by
  obtain ⟨p, hp⟩ := nl_deleteESuffix_total s r1 h0
  obtain ⟨u, hu⟩ := nl_undouble_total p.1
  simp only [step2, hp, hu, Option.bind_eq_bind, Option.some_bind]
  split <;> exact ⟨_, rfl⟩

theorem nl_step3Heid_total (s : List Char) (r1 r2 : Int) (h1 : 1 ≤ r1) (h2 : 1 ≤ r2) :
    ∃ t, step3Heid s r1 r2 = some t := by
  have hh := suffixIndex_len s "heid".toList 4 rfl
  simp only [step3Heid, suffixPos_eq, Option.bind_eq_bind, Option.some_bind]
  split
  · rename_i h
    obtain ⟨c, hc⟩ := idx_lookback s _ r2 h2 h (by omega)
    have hcut := sliceTo_eq s (suffixIndex s "heid".toList) (by omega) (by omega)
    have hback := sliceFrom_eq s (suffixIndex s "heid".toList + 4) (by omega) (by omega)
    have hk := suffixIndex_range (s.take (suffixIndex s "heid".toList).toNat) "en".toList
    obtain ⟨d, hd⟩ := nl_deleteEn_total (s.take (suffixIndex s "heid".toList).toNat)
      (suffixIndex (s.take (suffixIndex s "heid".toList).toNat) "en".toList) r1 h1 (by omega)
    simp only [hc, hcut, hback, hd, Option.some_bind]
    split
    · cases d <;> exact ⟨_, rfl⟩
    · exact ⟨_, rfl⟩
  · exact ⟨_, rfl⟩

theorem nl_igDeletable_total (s : List Char) (i r2 : Int) (h0 : 0 ≤ r2)
    (hi : i ≤ (s.length : Int)) : ∃ b, igDeletable s i r2 = some b := by
  unfold igDeletable
  split
  · simp only [sliceTo_eq s i (by omega) hi, suffixPos_eq, Option.bind_eq_bind,
      Option.some_bind]
    exact ⟨_, rfl⟩
  · exact ⟨_, rfl⟩

theorem nl_step3Rest_total (s : List Char) (r1 r2 : Int) (b : Bool) (h1 : 0 ≤ r1)
    (h2 : 0 ≤ r2) : ∃ t, step3Rest s r1 r2 b = some t := by
  obtain ⟨i, hi, hib⟩ := nl_firstSuffixPos_spec s ["end".toList, "ing".toList]
  have hig := suffixIndex_range s "ig".toList
  have hlijk := suffixIndex_range s "lijk".toList
  have hbaar := suffixIndex_range s "baar".toList
  have hbar := suffixIndex_range s "bar".toList
  simp only [step3Rest, suffixPos_eq, hi, Option.bind_eq_bind, Option.some_bind]
  split
  · split
    · have hcut := sliceTo_eq s i (by omega) (by omega)
      have hk := suffixIndex_range (s.take i.toNat) "ig".toList
      obtain ⟨g, hg⟩ := nl_igDeletable_total (s.take i.toNat)
        (suffixIndex (s.take i.toNat) "ig".toList) r2 h2 (by omega)
      obtain ⟨u, hu⟩ := nl_undouble_total (s.take i.toNat)
      simp only [hcut, hg, hu, Option.some_bind]
      split
      · rename_i hgt
        have hge : r2 ≤ suffixIndex (s.take i.toNat) "ig".toList := by
          unfold igDeletable at hg
          split at hg
          · assumption
          · simp_all
        exact ⟨_, sliceTo_eq _ _ (by omega) (by omega)⟩
      · exact ⟨_, rfl⟩
    · exact ⟨_, rfl⟩
  · split
    · obtain ⟨g, hg⟩ := nl_igDeletable_total s (suffixIndex s "ig".toList) r2 h2 (by omega)
      simp only [hg, Option.some_bind]
      split
      · exact ⟨_, sliceTo_eq _ _ (by omega) (by omega)⟩
      · exact ⟨_, rfl⟩
    · split
      · split
        · have hcut := sliceTo_eq s (suffixIndex s "lijk".toList) (by omega) (by omega)
          obtain ⟨p, hp⟩ := nl_deleteESuffix_total
            (s.take (suffixIndex s "lijk".toList).toNat) r1 h1
          obtain ⟨u, hu⟩ := nl_undouble_total p.1
          simp only [hcut, hp, hu, Option.some_bind]
          exact ⟨_, rfl⟩
        · exact ⟨_, rfl⟩
      · split
        · split
          · exact ⟨_, sliceTo_eq _ _ (by omega) (by omega)⟩
          · exact ⟨_, rfl⟩
        · split
          · split
            · exact ⟨_, sliceTo_eq _ _ (by omega) (by omega)⟩
            · exact ⟨_, rfl⟩
          · exact ⟨_, rfl⟩

theorem nl_step4_total (s : List Char) : ∃ t, step4 s = some t := by
  unfold step4
  simp only []
  split
  · obtain ⟨c, hc, -⟩ := idx_eq_some s ((s.length : Int) - 4) (by omega) (by omega)
    obtain ⟨v1, hv1, -⟩ := idx_eq_some s ((s.length : Int) - 3) (by omega) (by omega)
    obtain ⟨v2, hv2, -⟩ := idx_eq_some s ((s.length : Int) - 2) (by omega) (by omega)
    obtain ⟨d, hd, -⟩ := idx_eq_some s ((s.length : Int) - 1) (by omega) (by omega)
    simp only [hc, hv1, hv2, hd, Option.bind_eq_bind, Option.some_bind,
      sliceTo_eq s ((s.length : Int) - 2) (by omega) (by omega),
      sliceFrom_eq s ((s.length : Int) - 1) (by omega) (by omega)]
    split_ifs <;> exact ⟨_, rfl⟩
  · exact ⟨_, rfl⟩

theorem nl_unmark_no_marker (s : List Char) : 'Y' ∉ unmark s ∧ 'I' ∉ unmark s := by
  constructor
  · intro h
    simp only [unmark, List.mem_map] at h
    obtain ⟨v, -, hv⟩ := h
    split at hv
    · exact absurd hv (by decide)
    · rename_i hne
      split at hv
      · exact absurd hv (by decide)
      · rw [hv] at hne
        exact hne (by decide)
  · intro h
    simp only [unmark, List.mem_map] at h
    obtain ⟨v, -, hv⟩ := h
    split at hv
    · exact absurd hv (by decide)
    · split at hv
      · exact absurd hv (by decide)
      · rename_i hne
        rw [hv] at hne
        exact hne (by decide)

theorem nl_Stem_spec (lower : Char → Char) (word : List Char) :
    ∃ s, Stem lower word = some (unmark s) := by
  obtain ⟨s, hs, hlen⟩ := nl_prepare_total (word.map lower)
  obtain ⟨r1, r2, hr, h0, h12, h2, hne⟩ := nl_getR1R2_spec s
  by_cases hnil : s = []
  · subst hnil
    simp only [Stem, hs, Option.bind_eq_bind, Option.some_bind]
    exact ⟨[], by decide⟩
  · have hr1 := hne hnil
    obtain ⟨s1, hs1⟩ := nl_step1_total s r1 hr1
    obtain ⟨e, he⟩ := nl_step2_total s1 r1 h0
    obtain ⟨s3, hs3⟩ := nl_step3Heid_total e.1 r1 r2 hr1 (by omega)
    obtain ⟨s4, hs4⟩ := nl_step3Rest_total s3 r1 r2 e.2 h0 (by omega)
    obtain ⟨s5, hs5⟩ := nl_step4_total s4
    simp only [Stem, hs, hr, hs1, he, hs3, hs4, hs5, Option.bind_eq_bind, Option.some_bind]
    exact ⟨_, rfl⟩

end dutch

/-! ## Helper lemmas for the behaviour claims -/

/-! ## Buffers given by their last characters -/

theorem idx_append_right (p q : List Char) (k : Nat) (i : Int)
    (hi : i = (p.length : Int) + (k : Int)) : idx (p ++ q) i = q[k]? := by
  have h0 : 0 ≤ i := by omega
  have hn : i.toNat = p.length + k := by omega
  simp only [idx, h0, if_true, hn]
  rw [List.getElem?_append_right (by omega)]
  simp

theorem sliceTo_append (p q : List Char) (i : Int) (hi : i = (p.length : Int)) :
    sliceTo (p ++ q) i = some p := by
  have hn : i.toNat = p.length := by omega
  rw [sliceTo_eq _ _ (by omega) (by rw [List.length_append]; omega), hn]
  simp

theorem sliceFrom_append (p q : List Char) (i : Int) (hi : i = (p.length : Int)) :
    sliceFrom (p ++ q) i = some q := by
  have hn : i.toNat = p.length := by omega
  rw [sliceFrom_eq _ _ (by omega) (by rw [List.length_append]; omega), hn]
  simp

theorem exists_last_two (s : List Char) (h : 2 ≤ s.length) :
    ∃ p a b, s = p ++ [a, b] := by
  rcases List.eq_nil_or_concat s with rfl | ⟨q, b, rfl⟩
  · simp at h
  · rcases List.eq_nil_or_concat q with rfl | ⟨p, a, rfl⟩
    · simp at h
    · exact ⟨p, a, b, by simp⟩

theorem exists_last_four (s : List Char) (h : 4 ≤ s.length) :
    ∃ p a b c d, s = p ++ [a, b, c, d] := by
  obtain ⟨q, c, d, rfl⟩ := exists_last_two s (by omega)
  obtain ⟨p, a, b, rfl⟩ := exists_last_two q (by simp at h; omega)
  exact ⟨p, a, b, c, d, by simp⟩

namespace dutch

theorem nl_undouble_append (p : List Char) (a b : Char) :
    undouble (p ++ [a, b]) =
      some (if (b = 'k' ∨ b = 'd' ∨ b = 't') ∧ a = b then p ++ [a] else p ++ [a, b]) := by
  have hlen : (p ++ [a, b]).length = p.length + 2 := by simp
  have h1 : idx (p ++ [a, b]) (((p ++ [a, b]).length : Int) - 1) = some b := by
    rw [idx_append_right p [a, b] 1 _ (by rw [hlen]; push_cast; omega)]; rfl
  have h2 : idx (p ++ [a, b]) (((p ++ [a, b]).length : Int) - 2) = some a := by
    rw [idx_append_right p [a, b] 0 _ (by rw [hlen]; push_cast; omega)]; rfl
  have h3 : sliceTo (p ++ [a, b]) (((p ++ [a, b]).length : Int) - 1) = some (p ++ [a]) := by
    have : p ++ [a, b] = (p ++ [a]) ++ [b] := by simp
    rw [this]
    exact sliceTo_append (p ++ [a]) [b] _ (by simp; omega)
  have hnot : ¬ (p ++ [a, b]).length < 2 := by omega
  simp only [undouble, hnot, if_false, h1, h2, h3, Option.bind_eq_bind, Option.some_bind]
  by_cases hb : b = 'k' ∨ b = 'd' ∨ b = 't'
  · by_cases hab : a = b
    · have hc : (b == 'k' || b == 'd' || b == 't') = true := by
        simpa [Bool.or_eq_true, beq_iff_eq, or_assoc] using hb
      simp [hc, hab, hb]
    · have hc : (b == 'k' || b == 'd' || b == 't') = true := by
        simpa [Bool.or_eq_true, beq_iff_eq, or_assoc] using hb
      simp [hc, hab]
  · have hc : (b == 'k' || b == 'd' || b == 't') = false := by
      rw [Bool.eq_false_iff]
      intro h
      apply hb
      simpa [Bool.or_eq_true, beq_iff_eq, or_assoc] using h
    simp [hc, hb]

end dutch
namespace dutch

theorem nl_step4_short (s : List Char) (h : s.length < 4) : step4 s = some s := by
  have hn : ¬ ((s.length : Int) ≥ 4) := by omega
  simp only [step4, hn, if_false]

theorem nl_step4_append (p : List Char) (c v1 v2 d : Char) :
    step4 (p ++ [c, v1, v2, d]) =
      some (if v1 = v2 ∧ (v1 = 'a' ∨ v1 = 'e' ∨ v1 = 'o' ∨ v1 = 'u') ∧
              isVowel c = false ∧ isVowel d = false ∧ d ≠ 'I'
            then p ++ [c, v1, d] else p ++ [c, v1, v2, d]) := by
  have hlen : (p ++ [c, v1, v2, d]).length = p.length + 4 := by simp
  have hge : ((p ++ [c, v1, v2, d]).length : Int) ≥ 4 := by rw [hlen]; push_cast; omega
  have h1 : idx (p ++ [c, v1, v2, d]) (((p ++ [c, v1, v2, d]).length : Int) - 4) = some c := by
    rw [idx_append_right p _ 0 _ (by rw [hlen]; push_cast; omega)]; rfl
  have h2 : idx (p ++ [c, v1, v2, d]) (((p ++ [c, v1, v2, d]).length : Int) - 3) = some v1 := by
    rw [idx_append_right p _ 1 _ (by rw [hlen]; push_cast; omega)]; rfl
  have h3 : idx (p ++ [c, v1, v2, d]) (((p ++ [c, v1, v2, d]).length : Int) - 2) = some v2 := by
    rw [idx_append_right p _ 2 _ (by rw [hlen]; push_cast; omega)]; rfl
  have h4 : idx (p ++ [c, v1, v2, d]) (((p ++ [c, v1, v2, d]).length : Int) - 1) = some d := by
    rw [idx_append_right p _ 3 _ (by rw [hlen]; push_cast; omega)]; rfl
  have h5 : sliceTo (p ++ [c, v1, v2, d]) (((p ++ [c, v1, v2, d]).length : Int) - 2)
      = some (p ++ [c, v1]) := by
    have e : p ++ [c, v1, v2, d] = (p ++ [c, v1]) ++ [v2, d] := by simp
    have hl : ((p ++ [c, v1, v2, d]).length : Int) - 2 = ((p ++ [c, v1]).length : Int) := by
      simp; omega
    rw [hl, e]
    exact sliceTo_append (p ++ [c, v1]) [v2, d] _ (by simp)
  have h6 : sliceFrom (p ++ [c, v1, v2, d]) (((p ++ [c, v1, v2, d]).length : Int) - 1)
      = some [d] := by
    have e : p ++ [c, v1, v2, d] = (p ++ [c, v1, v2]) ++ [d] := by simp
    have hl : ((p ++ [c, v1, v2, d]).length : Int) - 1 = ((p ++ [c, v1, v2]).length : Int) := by
      simp; omega
    rw [hl, e]
    exact sliceFrom_append (p ++ [c, v1, v2]) [d] _ (by simp)
  simp only [step4, hge, if_true, h1, h2, h3, h4, h5, h6, Option.bind_eq_bind,
    Option.some_bind]
  by_cases hv : v1 = v2
  · subst hv
    by_cases ha : v1 = 'a' ∨ v1 = 'e' ∨ v1 = 'o' ∨ v1 = 'u'
    · have hc : (v1 == 'a' || v1 == 'e' || v1 == 'o' || v1 == 'u') = true := by
        simpa [Bool.or_eq_true, beq_iff_eq, or_assoc] using ha
      by_cases hC : isVowel c = false <;> by_cases hD : isVowel d = false <;>
        by_cases hI : d = 'I' <;> simp [hc, ha, hC, hD, hI]
    · have hc : (v1 == 'a' || v1 == 'e' || v1 == 'o' || v1 == 'u') = false := by
        rw [Bool.eq_false_iff]
        intro h
        apply ha
        simpa [Bool.or_eq_true, beq_iff_eq, or_assoc] using h
      simp [hc, ha]
  · simp [hv]

end dutch

theorem prefixes_exclusive (a b s : List Char) (ha : a.isPrefixOf s = true)
    (hb : b.isPrefixOf s = true) (hab : ¬ a <+: b) (hba : ¬ b <+: a) : False := by
  rcases List.prefix_or_prefix_of_prefix (List.isPrefixOf_iff_prefix.mp ha)
    (List.isPrefixOf_iff_prefix.mp hb) with h | h
  · exact hab h
  · exact hba h

theorem vowelThenNon_of_short (isV : Char → Bool) (s : List Char) (j : Nat)
    (h : s.length ≤ j + 1) : vowelThenNon isV s j = false := by
  have : s[j + 1]? = none := List.getElem?_eq_none (by omega)
  unfold vowelThenNon
  rw [this]
  split <;> simp_all

theorem vowelThenNon_eq (isV : Char → Bool) (s : List Char) (j : Nat) (a b : Char)
    (ha : s[j]? = some a) (hb : s[j + 1]? = some b) :
    vowelThenNon isV s j = (isV a && !isV b) := by
  unfold vowelThenNon
  rw [ha, hb]

namespace porter2

theorem calcRLoop_first (s : List Char) :
    ∀ (n i : Nat), (i + n + 1 = s.length ∨ (n = 0 ∧ s.length ≤ i + 1)) →
      ∃ r, calcRLoop s n (i : Int) = some r ∧
        ((∃ k, i ≤ k ∧ vowelThenNon isVowel s k = true ∧
            (∀ j, i ≤ j → j < k → vowelThenNon isVowel s j = false) ∧ r = (k : Int) + 2) ∨
          ((∀ j, i ≤ j → vowelThenNon isVowel s j = false) ∧ r = (s.length : Int))) := by
  intro n
  induction n with
  | zero =>
    intro i h
    refine ⟨_, rfl, Or.inr ⟨?_, rfl⟩⟩
    intro j hj
    exact vowelThenNon_of_short _ _ _ (by omega)
  | succ n ih =>
    intro i h
    have hlen : i + n + 2 = s.length := by omega
    obtain ⟨a, ha, ha2⟩ := idx_eq_some s (i : Int) (by omega) (by omega)
    obtain ⟨b, hb, hb2⟩ := idx_eq_some s ((i : Int) + 1) (by omega) (by omega)
    have e1 : ((i : Int)).toNat = i := by omega
    have e2 : ((i : Int) + 1).toNat = i + 1 := by omega
    rw [e1] at ha2
    rw [e2] at hb2
    have hv := vowelThenNon_eq isVowel s i a b ha2 hb2
    obtain ⟨r, hr, hcase⟩ := ih (i + 1) (by omega)
    have hcast : (((i + 1 : Nat)) : Int) = (i : Int) + 1 := by push_cast; rfl
    rw [hcast] at hr
    by_cases hi : vowelThenNon isVowel s i = true
    · have hab : isVowel a = true ∧ isVowel b = false := by
        rw [hv] at hi
        simpa using hi
      refine ⟨(i : Int) + 2, ?_, Or.inl ⟨i, le_rfl, hi, ?_, rfl⟩⟩
      · simp [calcRLoop, ha, hb, hab.1, hab.2]
      · intro j h1 h2; omega
    · have hi' : vowelThenNon isVowel s i = false := by simpa using hi
      have hloop : calcRLoop s (n + 1) (i : Int) = some r := by
        rw [hv] at hi'
        by_cases hva : isVowel a = true
        · have hvb : isVowel b = true := by
            rw [hva] at hi'
            simpa using hi'
          simp [calcRLoop, ha, hb, hva, hvb, hr]
        · simp [calcRLoop, ha, hva, hr]
      refine ⟨r, hloop, ?_⟩
      rcases hcase with ⟨k, hk, hkv, hkmin, hkr⟩ | ⟨hnone, hrl⟩
      · refine Or.inl ⟨k, by omega, hkv, ?_, hkr⟩
        intro j h1 h2
        by_cases hji : j = i
        · subst hji; exact hi'
        · exact hkmin j (by omega) h2
      · refine Or.inr ⟨?_, hrl⟩
        intro j h1
        by_cases hji : j = i
        · subst hji; exact hi'
        · exact hnone j (by omega)

theorem calcR_first (s : List Char) :
    ∃ r, calcR s = some r ∧
      ((∃ k, vowelThenNon isVowel s k = true ∧
          (∀ j, j < k → vowelThenNon isVowel s j = false) ∧ r = (k : Int) + 2) ∨
        ((∀ j, vowelThenNon isVowel s j = false) ∧ r = (s.length : Int))) := by
  obtain ⟨r, hr, h⟩ := calcRLoop_first s ((s.length : Int) - 1).toNat 0 (by omega)
  refine ⟨r, hr, ?_⟩
  rcases h with ⟨k, -, hk, hmin, hkr⟩ | ⟨hnone, hrl⟩
  · exact Or.inl ⟨k, hk, fun j hj => hmin j (Nat.zero_le _) hj, hkr⟩
  · exact Or.inr ⟨fun j => hnone j (Nat.zero_le _), hrl⟩

end porter2

namespace dutch

theorem nl_isVowelAt_eq (s : List Char) (i : Nat) (a : Char) (ha : s[i]? = some a) :
    isVowelAt s (i : Int) = some (isVowel a) := by
  have hlt : i < s.length := by
    by_contra h
    rw [List.getElem?_eq_none (by omega)] at ha
    cases ha
  obtain ⟨c, hc, hc2⟩ := idx_eq_some s (i : Int) (by omega) (by omega)
  have e1 : ((i : Int)).toNat = i := by omega
  rw [e1, ha] at hc2
  cases hc2
  have hcond : ((decide ((i : Int) < 0)) || decide ((i : Int) ≥ (s.length : Int))) = false := by
    simp; omega
  simp only [isVowelAt, hcond, hc, Option.bind_eq_bind, Option.some_bind]
  rfl

theorem nl_calcRLoop_first (s : List Char) :
    ∀ (n i : Nat), (i + n + 1 = s.length ∨ (n = 0 ∧ s.length ≤ i + 1)) →
      ∃ r, calcRLoop s n (i : Int) = some r ∧
        ((∃ k, i ≤ k ∧ vowelThenNon isVowel s k = true ∧
            (∀ j, i ≤ j → j < k → vowelThenNon isVowel s j = false) ∧ r = (k : Int) + 2) ∨
          ((∀ j, i ≤ j → vowelThenNon isVowel s j = false) ∧ r = (s.length : Int))) := by
  intro n
  induction n with
  | zero =>
    intro i h
    refine ⟨_, rfl, Or.inr ⟨?_, rfl⟩⟩
    intro j hj
    exact vowelThenNon_of_short _ _ _ (by omega)
  | succ n ih =>
    intro i h
    have hlen : i + n + 2 = s.length := by omega
    obtain ⟨a, ha2⟩ : ∃ a, s[i]? = some a := ⟨_, List.getElem?_eq_getElem (by omega)⟩
    obtain ⟨b, hb2⟩ : ∃ b, s[i + 1]? = some b := ⟨_, List.getElem?_eq_getElem (by omega)⟩
    have ha := nl_isVowelAt_eq s i a ha2
    have hb := nl_isVowelAt_eq s (i + 1) b hb2
    have hv := vowelThenNon_eq isVowel s i a b ha2 hb2
    obtain ⟨r, hr, hcase⟩ := ih (i + 1) (by omega)
    have hcast : (((i + 1 : Nat)) : Int) = (i : Int) + 1 := by push_cast; rfl
    rw [hcast] at hr hb
    by_cases hi : vowelThenNon isVowel s i = true
    · have hab : isVowel a = true ∧ isVowel b = false := by
        rw [hv] at hi
        simpa using hi
      refine ⟨(i : Int) + 2, ?_, Or.inl ⟨i, le_rfl, hi, ?_, rfl⟩⟩
      · simp [calcRLoop, ha, hb, hab.1, hab.2]
      · intro j h1 h2; omega
    · have hi' : vowelThenNon isVowel s i = false := by simpa using hi
      have hloop : calcRLoop s (n + 1) (i : Int) = some r := by
        rw [hv] at hi'
        by_cases hva : isVowel a = true
        · have hvb : isVowel b = true := by
            rw [hva] at hi'
            simpa using hi'
          simp [calcRLoop, ha, hb, hva, hvb, hr]
        · simp [calcRLoop, ha, hva, hr]
      refine ⟨r, hloop, ?_⟩
      rcases hcase with ⟨k, hk, hkv, hkmin, hkr⟩ | ⟨hnone, hrl⟩
      · refine Or.inl ⟨k, by omega, hkv, ?_, hkr⟩
        intro j h1 h2
        by_cases hji : j = i
        · subst hji; exact hi'
        · exact hkmin j (by omega) h2
      · refine Or.inr ⟨?_, hrl⟩
        intro j h1
        by_cases hji : j = i
        · subst hji; exact hi'
        · exact hnone j (by omega)

theorem nl_calcR_first (s : List Char) :
    ∃ r, calcR s = some r ∧
      ((∃ k, vowelThenNon isVowel s k = true ∧
          (∀ j, j < k → vowelThenNon isVowel s j = false) ∧ r = (k : Int) + 2) ∨
        ((∀ j, vowelThenNon isVowel s j = false) ∧ r = (s.length : Int))) := by
  obtain ⟨r, hr, h⟩ := nl_calcRLoop_first s ((s.length : Int) - 1).toNat 0 (by omega)
  refine ⟨r, hr, ?_⟩
  rcases h with ⟨k, -, hk, hmin, hkr⟩ | ⟨hnone, hrl⟩
  · exact Or.inl ⟨k, hk, fun j hj => hmin j (Nat.zero_le _) hj, hkr⟩
  · exact Or.inr ⟨fun j => hnone j (Nat.zero_le _), hrl⟩

end dutch
theorem suffixIndex_of_suffix (s suf : List Char) (h : suf.isSuffixOf s = true) :
    suffixIndex s suf = (s.length : Int) - (suf.length : Int) := by
  simp only [suffixIndex, h, if_true]

theorem suffixIndex_of_not_suffix (s suf : List Char) (h : suf.isSuffixOf s = false) :
    suffixIndex s suf = -1 := by
  simp [suffixIndex, h]

theorem firstMatch_longest (s : List Char) :
    ∀ table : List (List Char), suffixOrdered table = true →
      ∀ e, firstMatch table s = some e →
        e <:+ s ∧ e ∈ table ∧ ∀ f ∈ table, f <:+ s → f.length ≤ e.length := by
  intro table
  induction table with
  | nil => intro _ e h; simp [firstMatch] at h
  | cons x rest ih =>
    intro hord e h
    simp only [suffixOrdered, Bool.and_eq_true, List.all_eq_true] at hord
    obtain ⟨hx, hrest⟩ := hord
    by_cases hxs : x.isSuffixOf s = true
    · have he : e = x := by
        simp only [firstMatch, List.find?_cons, hxs] at h
        exact (Option.some.inj h).symm
      subst he
      have hsuf : e <:+ s := List.isSuffixOf_iff_suffix.mp hxs
      refine ⟨hsuf, List.mem_cons_self _ _, ?_⟩
      intro f hf hfs
      rcases List.mem_cons.mp hf with rfl | hf
      · exact le_rfl
      · rcases List.suffix_or_suffix_of_suffix hsuf hfs with h1 | h1
        · have := hx f hf
          simp only [Bool.not_eq_true', Bool.and_eq_false_iff, decide_eq_false_iff_not,
            not_lt] at this
          rcases this with h2 | h2
          · rw [List.isSuffixOf_iff_suffix.mpr h1] at h2
            cases h2
          · exact h2
        · exact h1.length_le
    · have hxs' : x.isSuffixOf s = false := Bool.eq_false_iff.mpr hxs
      have h' : firstMatch rest s = some e := by
        simpa only [firstMatch, List.find?_cons, hxs'] using h
      obtain ⟨h1, h2, h3⟩ := ih hrest e h'
      refine ⟨h1, List.mem_cons_of_mem _ h2, ?_⟩
      intro f hf hfs
      rcases List.mem_cons.mp hf with rfl | hf
      · rw [List.isSuffixOf_iff_suffix.mpr hfs] at hxs'
        cases hxs'
      · exact h3 f hf hfs

namespace porter2

theorem replaceLoop_first (s : List Char) (r1 : Int) (reps : List (List Char)) :
    ∀ (table : List (List Char)) (j : Nat), j + table.length ≤ reps.length →
      (firstMatch table s = none ∧ replaceLoop s r1 reps table j = some none) ∨
      (∃ e k rep, firstMatch table s = some e ∧ table[k]? = some e ∧
        reps[j + k]? = some rep ∧
        replaceLoop s r1 reps table j =
          some (some (if r1 ≤ suffixIndex s e
            then s.take (suffixIndex s e).toNat ++ rep else s))) := by
  intro table
  induction table with
  | nil => intro j _; exact Or.inl ⟨rfl, rfl⟩
  | cons x rest ih =>
    intro j hj
    simp only [List.length_cons] at hj
    by_cases hxs : x.isSuffixOf s = true
    · right
      have hrep : reps[j]? = some reps[j] := List.getElem?_eq_getElem (by omega)
      have hidx := suffixIndex_of_suffix s x hxs
      have hle := (List.isSuffixOf_iff_suffix.mp hxs).length_le
      refine ⟨x, 0, reps[j], ?_, by simp, hrep, ?_⟩
      · simp only [firstMatch, List.find?_cons, hxs]
      · have hne : (suffixIndex s x != -1) = true := by
          rw [bne_iff_ne, hidx]; omega
        simp only [replaceLoop, suffixPos_eq, Option.bind_eq_bind, Option.some_bind, hne,
          if_true]
        by_cases hr : r1 ≤ suffixIndex s x
        · have hge : suffixIndex s x ≥ r1 := hr
          simp only [hge, hr, if_true, sliceTo_eq s (suffixIndex s x) (by omega) (by omega), hrep,
            Option.some_bind]
        · have hge : ¬ suffixIndex s x ≥ r1 := hr
          simp only [hge, hr, if_false]
    · have hxs' : x.isSuffixOf s = false := Bool.eq_false_iff.mpr hxs
      have hidx := suffixIndex_of_not_suffix s x hxs'
      have hstep : replaceLoop s r1 reps (x :: rest) j = replaceLoop s r1 reps rest (j + 1) := by
        simp [replaceLoop, suffixPos_eq, hidx]
      have hfm : firstMatch (x :: rest) s = firstMatch rest s := by
        simp only [firstMatch, List.find?_cons, hxs']
      rcases ih (j + 1) (by omega) with ⟨h1, h2⟩ | ⟨e, k, rep, h1, h2, h3, h4⟩
      · exact Or.inl ⟨by rw [hfm, h1], by rw [hstep, h2]⟩
      · right
        refine ⟨e, k + 1, rep, by rw [hfm, h1], by simpa using h2, ?_, by rw [hstep, h4]⟩
        have : j + (k + 1) = j + 1 + k := by omega
        rw [this]; exact h3

theorem deleteLoop_first (s : List Char) (r2 : Int) :
    ∀ table : List (List Char),
      (firstMatch table s = none ∧ deleteLoop s r2 table = some none) ∨
      (∃ e, firstMatch table s = some e ∧
        deleteLoop s r2 table =
          some (some (if r2 ≤ suffixIndex s e then s.take (suffixIndex s e).toNat else s))) := by
  intro table
  induction table with
  | nil => exact Or.inl ⟨rfl, rfl⟩
  | cons x rest ih =>
    by_cases hxs : x.isSuffixOf s = true
    · right
      have hidx := suffixIndex_of_suffix s x hxs
      have hle := (List.isSuffixOf_iff_suffix.mp hxs).length_le
      refine ⟨x, ?_, ?_⟩
      · simp only [firstMatch, List.find?_cons, hxs]
      · have hne : (suffixIndex s x != -1) = true := by
          rw [bne_iff_ne, hidx]; omega
        simp only [deleteLoop, suffixPos_eq, Option.bind_eq_bind, Option.some_bind, hne,
          if_true]
        by_cases hr : r2 ≤ suffixIndex s x
        · have hge : suffixIndex s x ≥ r2 := hr
          simp only [hge, hr, if_true, sliceTo_eq s (suffixIndex s x) (by omega) (by omega),
            Option.some_bind]
        · have hge : ¬ suffixIndex s x ≥ r2 := hr
          simp only [hge, hr, if_false]
    · have hxs' : x.isSuffixOf s = false := Bool.eq_false_iff.mpr hxs
      have hidx := suffixIndex_of_not_suffix s x hxs'
      have hstep : deleteLoop s r2 (x :: rest) = deleteLoop s r2 rest := by
        simp [deleteLoop, suffixPos_eq, hidx]
      have hfm : firstMatch (x :: rest) s = firstMatch rest s := by
        simp only [firstMatch, List.find?_cons, hxs']
      rcases ih with ⟨h1, h2⟩ | ⟨e, h1, h4⟩
      · exact Or.inl ⟨by rw [hfm, h1], by rw [hstep, h2]⟩
      · exact Or.inr ⟨e, by rw [hfm, h1], by rw [hstep, h4]⟩

end porter2
namespace porter2

theorem removeSuffix_len (s suf : List Char) :
    ∃ t, removeSuffix s suf = some t ∧ t.length ≤ s.length := by
  have hb := suffixIndex_bounds s suf
  simp only [removeSuffix, suffixPos_eq, Option.bind_eq_bind, Option.some_bind]
  split
  · rename_i h
    simp only [bne_iff_ne, ne_eq] at h
    exact ⟨_, sliceTo_eq _ _ (by omega) (by omega), by rw [List.length_take]; omega⟩
  · exact ⟨_, rfl, le_rfl⟩

theorem step0_len (s : List Char) : ∃ t, step0 s = some t ∧ t.length ≤ s.length := by
  obtain ⟨a, ha, hla⟩ := removeSuffix_len s "'s'".toList
  obtain ⟨b, hb, hlb⟩ := removeSuffix_len a "'s".toList
  obtain ⟨c, hc, hlc⟩ := removeSuffix_len b "'".toList
  exact ⟨c, by simp only [step0, ha, hb, hc, Option.bind_eq_bind, Option.some_bind],
    by omega⟩

theorem step1a_len (s : List Char) : ∃ t, step1a s = some t ∧ t.length ≤ s.length := by
  have h1 := suffixIndex_len s "sses".toList 4 rfl
  have h2 := suffixIndex_len s "ied".toList 3 rfl
  have h3 := suffixIndex_len s "ies".toList 3 rfl
  have h4 := suffixIndex_len s "s".toList 1 rfl
  have e1 : "ss".toList.length = 2 := rfl
  have e2 : "ie".toList.length = 2 := rfl
  simp only [step1a, suffixPos_eq, Option.bind_eq_bind, Option.some_bind]
  repeat' first
    | exact ⟨_, rfl, le_rfl⟩
    | (refine ⟨_, rfl, ?_⟩
       simp only [bne_iff_ne, ne_eq, beq_iff_eq] at *
       simp only [List.length_append, List.length_take, List.length_cons, List.length_nil, e1,
         e2]
       omega)
    | simp only [Option.some_bind, Bool.false_eq_true, if_false, if_true]
    | rw [sliceTo_eq _ _
        (by simp only [bne_iff_ne, ne_eq, beq_iff_eq] at *; omega)
        (by simp only [bne_iff_ne, ne_eq, beq_iff_eq] at *; omega)]
    | (obtain ⟨v, hv⟩ := hasVowelBeforePos_total s ((s.length : Int) - 3) (by omega)
       rw [hv])
    | split

end porter2
theorem firstMatch_suffix (s : List Char) (table : List (List Char)) (e : List Char)
    (h : firstMatch table s = some e) : e.isSuffixOf s = true := by
  unfold firstMatch at h
  have := List.find?_some (p := fun (suf : List Char) => suf.isSuffixOf s) h
  simpa using this

theorem zip_mem_of_getElem (ws rs : List (List Char)) (k : Nat) (e rep : List Char)
    (h1 : ws[k]? = some e) (h2 : rs[k]? = some rep) : (e, rep) ∈ ws.zip rs := by
  have : (ws.zip rs)[k]? = some (e, rep) := List.getElem?_zip_eq_some.mpr ⟨h1, h2⟩
  exact List.getElem?_mem this

namespace porter2

theorem step1bEed_len (s : List Char) (r1 : Int) :
    ∀ sufs : List (List Char), (∀ suf ∈ sufs, 2 ≤ suf.length) →
      ∃ e, step1bEed s r1 sufs = some e ∧ ∀ t, e = some t → t.length ≤ s.length := by
  intro sufs
  induction sufs with
  | nil => intro _; exact ⟨none, rfl, fun t ht => by cases ht⟩
  | cons suf rest ih =>
    intro hs
    obtain ⟨e, he, hel⟩ := ih (fun x hx => hs x (List.mem_cons_of_mem _ hx))
    have h2 := hs suf (List.mem_cons_self _ _)
    have h1 := suffixIndex_bounds s suf
    have e1 : "ee".toList.length = 2 := rfl
    simp only [step1bEed, suffixPos_eq, Option.bind_eq_bind, Option.some_bind, he]
    split
    · rename_i hne
      simp only [bne_iff_ne, ne_eq] at hne
      split
      · rw [sliceTo_eq _ _ (by omega) (by omega)]
        refine ⟨_, rfl, ?_⟩
        intro t ht
        cases ht
        simp only [List.length_append, List.length_take, e1]
        omega
      · exact ⟨_, rfl, fun t ht => by cases ht; exact le_rfl⟩
    · exact ⟨e, rfl, hel⟩

theorem step1bRepair_len (s : List Char) :
    ∃ t, step1bRepair s = some t ∧ t.length ≤ s.length + 1 := by
  obtain ⟨d, hd⟩ := endsWithDouble_total s
  obtain ⟨w, hw⟩ := isShortWord_total s
  simp only [step1bRepair, suffixPos_eq, Option.bind_eq_bind, Option.some_bind, hd, hw]
  repeat' first
    | exact ⟨_, rfl, by simp⟩
    | simp only [Option.some_bind, Bool.false_eq_true, if_false, if_true]
    | exact ⟨_, sliceTo_eq _ _
          (by have := endsWithDouble_len s d hd (by assumption); omega)
          (by omega), by rw [List.length_take]; omega⟩
    | split

theorem step1bDel_len (s : List Char) :
    ∀ sufs : List (List Char), (∀ suf ∈ sufs, 1 ≤ suf.length) →
      ∃ t, step1bDel s sufs = some t ∧ t.length ≤ s.length := by
  intro sufs
  induction sufs with
  | nil => intro _; exact ⟨_, rfl, le_rfl⟩
  | cons suf rest ih =>
    intro hs
    obtain ⟨e, he, hel⟩ := ih (fun x hx => hs x (List.mem_cons_of_mem _ hx))
    have h1 := hs suf (List.mem_cons_self _ _)
    simp only [step1bDel, suffixPos_eq, Option.bind_eq_bind, Option.some_bind, he]
    split
    · by_cases hl : s.length > suf.length
      · obtain ⟨v, hv⟩ := hasVowelBeforePos_total s
          ((s.length : Int) - (suf.length : Int) - 1) (by omega)
        obtain ⟨t, ht, htl⟩ :=
          step1bRepair_len (s.take ((s.length : Int) - (suf.length : Int)).toNat)
        rw [List.length_take] at htl
        simp only [hl, if_true, hv, Option.some_bind,
          sliceTo_eq s ((s.length : Int) - (suf.length : Int)) (by omega) (by omega), ht]
        split
        · exact ⟨_, rfl, by omega⟩
        · exact ⟨_, rfl, le_rfl⟩
      · simp only [hl, if_false, Option.some_bind, Bool.false_eq_true]
        exact ⟨_, rfl, le_rfl⟩
    · exact ⟨e, rfl, hel⟩

theorem step1b_len (s : List Char) (r1 : Int) :
    ∃ t, step1b s r1 = some t ∧ t.length ≤ s.length := by
  obtain ⟨e, he, hel⟩ := step1bEed_len s r1 ["eed".toList, "eedly".toList] (by decide)
  obtain ⟨t, ht, htl⟩ := step1bDel_len s step1bWords (by decide)
  simp only [step1b, he, ht, Option.bind_eq_bind, Option.some_bind]
  cases e with
  | none => exact ⟨_, rfl, htl⟩
  | some u => exact ⟨_, rfl, hel u rfl⟩

theorem step1c_len (s : List Char) : ∃ t, step1c s = some t ∧ t.length ≤ s.length := by
  unfold step1c
  split
  · obtain ⟨a, ha, -⟩ := idx_eq_some s ((s.length : Int) - 1) (by omega) (by omega)
    obtain ⟨b, hb, -⟩ := idx_eq_some s ((s.length : Int) - 2) (by omega) (by omega)
    simp only [ha, hb, Option.bind_eq_bind, Option.some_bind,
      setAt_eq s ((s.length : Int) - 1) 'i' (by omega) (by omega)]
    split_ifs
    · exact ⟨_, rfl, by rw [List.length_set]⟩
    · exact ⟨_, rfl, le_rfl⟩
    · exact ⟨_, rfl, le_rfl⟩
  · exact ⟨_, rfl, le_rfl⟩

/-- The result of a table rule is no longer than the buffer when the replacement is no
longer than the matched suffix. -/
theorem rule_result_len (s e rep : List Char) (r : Int) (he : e.isSuffixOf s = true)
    (hrep : rep.length ≤ e.length) :
    (if r ≤ suffixIndex s e then s.take (suffixIndex s e).toNat ++ rep else s).length
      ≤ s.length := by
  have hidx := suffixIndex_of_suffix s e he
  have hle := (List.isSuffixOf_iff_suffix.mp he).length_le
  split
  · rw [List.length_append, List.length_take]
    omega
  · exact le_rfl

theorem step2_len (s : List Char) : ∃ t, step2 s = some t ∧ t.length ≤ s.length := by
  obtain ⟨r1, r2, hr, h0, h12, h2, hne⟩ := getR1R2_spec s
  rcases replaceLoop_first s r1 step2Reps step2Words 0 (by decide)
    with ⟨-, hnone⟩ | ⟨e, k, rep, h1, hk, hrep, h4⟩
  · simp only [step2, hr, hnone, Option.bind_eq_bind, Option.some_bind, suffixPos_eq]
    have h1 := suffixIndex_len s "ogi".toList 3 rfl
    have h3 := suffixIndex_len s "li".toList 2 rfl
    have e1 : "og".toList.length = 2 := rfl
    split
    · rename_i h
      simp only [Bool.and_eq_true, bne_iff_ne, ne_eq, decide_eq_true_eq] at h
      have hr1 := hne (List.length_pos.mp (by omega))
      obtain ⟨c, hc⟩ := idx_lookback s _ r1 hr1 h.2 (by omega)
      simp only [hc, Option.some_bind]
      split
      · rw [sliceTo_eq _ _ (by omega) (by omega)]
        exact ⟨_, rfl, by simp only [List.length_append, List.length_take, e1]; omega⟩
      · exact ⟨_, rfl, le_rfl⟩
    · split
      · rename_i h
        simp only [Bool.and_eq_true, bne_iff_ne, ne_eq, decide_eq_true_eq] at h
        have hr1 := hne (List.length_pos.mp (by omega))
        obtain ⟨c, hc⟩ := idx_lookback s _ r1 hr1 h.2 (by omega)
        simp only [hc, Option.some_bind]
        split
        · exact ⟨_, sliceTo_eq _ _ (by omega) (by omega), by rw [List.length_take]; omega⟩
        · exact ⟨_, rfl, le_rfl⟩
      · exact ⟨_, rfl, le_rfl⟩
  · rw [Nat.zero_add] at hrep
    have hall : ∀ p ∈ step2Words.zip step2Reps, p.2.length ≤ p.1.length := by decide
    have hlen := hall _ (zip_mem_of_getElem _ _ k e rep hk hrep)
    have hst : step2 s = some (if r1 ≤ suffixIndex s e
        then s.take (suffixIndex s e).toNat ++ rep else s) := by
      simp only [step2, hr, h4, Option.bind_eq_bind, Option.some_bind]
    exact ⟨_, hst, rule_result_len s e rep r1 (firstMatch_suffix s _ e h1) hlen⟩

theorem step3_len (s : List Char) : ∃ t, step3 s = some t ∧ t.length ≤ s.length := by
  obtain ⟨r1, r2, hr, h0, h12, h2, hne⟩ := getR1R2_spec s
  rcases replaceLoop_first s r1 step3Reps step3Words 0 (by decide)
    with ⟨-, hnone⟩ | ⟨e, k, rep, h1, hk, hrep, h4⟩
  · simp only [step3, hr, hnone, Option.bind_eq_bind, Option.some_bind, suffixPos_eq]
    have h1 := suffixIndex_range s "ative".toList
    split
    · rename_i h
      simp only [Bool.and_eq_true, bne_iff_ne, ne_eq, decide_eq_true_eq] at h
      exact ⟨_, sliceTo_eq _ _ (by omega) (by omega), by rw [List.length_take]; omega⟩
    · exact ⟨_, rfl, le_rfl⟩
  · rw [Nat.zero_add] at hrep
    have hall : ∀ p ∈ step3Words.zip step3Reps, p.2.length ≤ p.1.length := by decide
    have hlen := hall _ (zip_mem_of_getElem _ _ k e rep hk hrep)
    have hst : step3 s = some (if r1 ≤ suffixIndex s e
        then s.take (suffixIndex s e).toNat ++ rep else s) := by
      simp only [step3, hr, h4, Option.bind_eq_bind, Option.some_bind]
    exact ⟨_, hst, rule_result_len s e rep r1 (firstMatch_suffix s _ e h1) hlen⟩

theorem step4_len (s : List Char) : ∃ t, step4 s = some t ∧ t.length ≤ s.length := by
  obtain ⟨r1, r2, hr, h0, h12, h2, hne⟩ := getR1R2_spec s
  rcases deleteLoop_first s r2 step4Words with ⟨-, hnone⟩ | ⟨e, h1, h4⟩
  · simp only [step4, hr, hnone, Option.bind_eq_bind, Option.some_bind, suffixPos_eq]
    have h1 := suffixIndex_len s "ion".toList 3 rfl
    split
    · rename_i h
      simp only [Bool.and_eq_true, bne_iff_ne, ne_eq, decide_eq_true_eq] at h
      have hr1 := hne (List.length_pos.mp (by omega))
      obtain ⟨c, hc⟩ := idx_lookback s _ r2 (by omega) h.2 (by omega)
      simp only [hc, Option.some_bind]
      split
      · exact ⟨_, sliceTo_eq _ _ (by omega) (by omega), by rw [List.length_take]; omega⟩
      · exact ⟨_, rfl, le_rfl⟩
    · exact ⟨_, rfl, le_rfl⟩
  · have hst : step4 s = some (if r2 ≤ suffixIndex s e
        then s.take (suffixIndex s e).toNat else s) := by
      simp only [step4, hr, h4, Option.bind_eq_bind, Option.some_bind]
    have := rule_result_len s e [] r2 (firstMatch_suffix s _ e h1) (Nat.zero_le _)
    simp only [List.append_nil] at this
    exact ⟨_, hst, this⟩

end porter2

namespace porter2

theorem step5_len (s : List Char) : ∃ t, step5 s = some t ∧ t.length ≤ s.length := by
  obtain ⟨r1, r2, hr, h0, h12, h2, hne⟩ := getR1R2_spec s
  simp only [step5, hr, Option.bind_eq_bind, Option.some_bind]
  by_cases hi : (s.length : Int) - 1 > 0
  · obtain ⟨c, hc, -⟩ := idx_eq_some s ((s.length : Int) - 1) (by omega) (by omega)
    obtain ⟨d, hd, -⟩ := idx_eq_some s ((s.length : Int) - 1 - 1) (by omega) (by omega)
    have hcut := sliceTo_eq s ((s.length : Int) - 1) (by omega) (by omega)
    have hcl : (s.take ((s.length : Int) - 1).toNat).length ≤ s.length := by
      rw [List.length_take]; omega
    simp only [hi, if_true, hc, hd, hcut, Option.some_bind]
    split
    · split
      · exact ⟨_, rfl, hcl⟩
      · split
        · split
          · exact ⟨_, rfl, le_rfl⟩
          · obtain ⟨b, hb⟩ := shortSyllable_total s ((s.length : Int) - 1) (by omega) (by omega)
            simp only [hb, Option.some_bind]
            split
            · exact ⟨_, rfl, le_rfl⟩
            · exact ⟨_, rfl, hcl⟩
        · exact ⟨_, rfl, le_rfl⟩
    · repeat' first
        | exact ⟨_, rfl, le_rfl⟩
        | exact ⟨_, rfl, hcl⟩
        | simp only [Option.some_bind, Bool.false_eq_true, if_false, if_true]
        | split
  · have hi1 : ¬ ((s.length : Int) - 1 > 1) := by omega
    simp only [hi, hi1, if_false, Option.some_bind, Bool.false_eq_true, decide_False,
      Bool.false_and]
    exact ⟨_, rfl, le_rfl⟩

theorem stemBody_len (s : List Char) (hlen : 2 < s.length) :
    ∃ t, stemBody s = some t ∧ t.length ≤ s.length := by
  obtain ⟨c, hc, -⟩ := idx_eq_some s 0 le_rfl (by omega)
  obtain ⟨s1, hs1, hl1, hl1'⟩ : ∃ s1, (if c == apostrophe then sliceFrom s 1 else some s)
      = some s1 ∧ 2 ≤ s1.length ∧ s1.length ≤ s.length := by
    split
    · exact ⟨_, sliceFrom_eq s 1 (by omega) (by omega), by rw [List.length_drop]; omega,
        by rw [List.length_drop]; omega⟩
    · exact ⟨s, rfl, by omega, le_rfl⟩
  obtain ⟨d, hd, -⟩ := idx_eq_some s1 0 le_rfl (by omega)
  obtain ⟨s2, hs2, hl2⟩ : ∃ s2, (if d == 'y' then setAt s1 0 'Y' else some s1) = some s2
      ∧ s2.length = s1.length := by
    split
    · exact ⟨_, setAt_eq s1 0 'Y' le_rfl (by omega), by rw [List.length_set]⟩
    · exact ⟨s1, rfl, rfl⟩
  obtain ⟨s3, hs3, hl3⟩ := markYLoop_total ((s2.length : Int) - 1).toNat 1 s2 le_rfl (by omega)
  obtain ⟨r1, r2, hr, -⟩ := getR1R2_spec s3
  obtain ⟨s4, hs4, hl4⟩ := step0_len s3
  obtain ⟨s5, hs5, hl5⟩ := step1a_len s4
  obtain ⟨s6, hs6, hl6⟩ := step1b_len s5 r1
  obtain ⟨s7, hs7, hl7⟩ := step1c_len s6
  obtain ⟨s8, hs8, hl8⟩ := step2_len s7
  obtain ⟨s9, hs9, hl9⟩ := step3_len s8
  obtain ⟨s10, hs10, hl10⟩ := step4_len s9
  obtain ⟨s11, hs11, hl11⟩ := step5_len s10
  simp only [stemBody, hc, hs1, hd, hs2, hs3, hr, hs4, hs5, hs6, hs7, hs8, hs9, hs10, hs11,
    Option.bind_eq_bind, Option.some_bind]
  split
  · exact ⟨s5, rfl, by omega⟩
  · exact ⟨_, rfl, by simp only [unmark, List.length_map]; omega⟩

theorem lookup_some_mem_key (k v : List Char) :
    ∀ l : List (List Char × List Char), l.lookup k = some v → (k, v) ∈ l := by
  intro l
  induction l with
  | nil => intro h; simp at h
  | cons p l ih =>
    intro h
    obtain ⟨a, b⟩ := p
    rw [List.lookup_cons] at h
    split at h
    · rename_i hka
      cases h
      have : k = a := by simpa using hka
      subst this
      exact List.mem_cons_self _ _
    · exact List.mem_cons_of_mem _ (ih h)

theorem Stem_len (lower : Char → Char) (word : List Char) :
    ∃ r, Stem lower word = some r ∧ r.length ≤ word.length := by
  have hm : (word.map lower).length = word.length := List.length_map _ _
  unfold Stem
  simp only []
  split
  · rename_i rep hrep
    have hmem := lookup_some_mem_key _ _ _ hrep
    have hall : ∀ p ∈ exceptions1, p.2.length ≤ p.1.length := by decide
    have := hall _ hmem
    exact ⟨rep, rfl, by simp only [] at this; omega⟩
  · split
    · exact ⟨_, rfl, by omega⟩
    · obtain ⟨t, ht, htl⟩ := stemBody_len (word.map lower) (by omega)
      exact ⟨t, ht, by omega⟩

end porter2

theorem set_eq_self (l : List Char) (i : Nat) (a : Char) (h : l[i]? = some a) :
    l.set i a = l := by
  apply List.ext_getElem?
  intro k
  by_cases hk : i = k
  · subst hk
    have hlt : i < l.length := by
      by_contra hge
      rw [List.getElem?_eq_none (by omega)] at h
      cases h
    rw [List.getElem?_set_self hlt, h]
  · rw [List.getElem?_set_ne hk]

namespace dutch

theorem nl_unmark_set (s : List Char) (i : Nat) (a b : Char) (h : s[i]? = some a)
    (hab : unmark [b] = unmark [a]) : unmark (s.set i b) = unmark s := by
  have hf : (if b == 'Y' then 'y' else if b == 'I' then 'i' else b)
      = (if a == 'Y' then 'y' else if a == 'I' then 'i' else a) := by
    simpa [unmark] using hab
  unfold unmark
  rw [List.map_set, hf]
  apply set_eq_self
  rw [List.getElem?_map, h]
  rfl

theorem nl_unmark_fixed (s : List Char) (h : ∀ c ∈ s, c ≠ 'Y' ∧ c ≠ 'I') : unmark s = s := by
  unfold unmark
  conv_rhs => rw [← List.map_id s]
  apply List.map_congr_left
  intro c hc
  obtain ⟨h1, h2⟩ := h c hc
  simp [h1, h2]

theorem nl_markYLoop_unmark :
    ∀ (n : Nat) (i : Int) (s : List Char), 1 ≤ i → i + (n : Int) ≤ (s.length : Int) →
      ∃ t, markYLoop n i s = some t ∧ t.length = s.length ∧ unmark t = unmark s := by
  intro n
  induction n with
  | zero => intro i s _ _; exact ⟨s, rfl, rfl, rfl⟩
  | succ n ih =>
    intro i s hi hn
    obtain ⟨b, hb, hb2⟩ := idx_eq_some s i (by omega) (by omega)
    obtain ⟨v, hv⟩ := nl_isVowelAt_total s (i - 1)
    have hset := setAt_eq s i 'Y' (by omega) (by omega)
    obtain ⟨t, ht, hlen, hun⟩ := ih (i + 1) s (by omega) (by omega)
    obtain ⟨u, hu, hulen, huun⟩ := ih (i + 1) (s.set i.toNat 'Y') (by omega)
      (by rw [List.length_set]; omega)
    rw [List.length_set] at hulen
    simp only [markYLoop, hv, hb, hset, Option.bind_eq_bind, Option.some_bind]
    split
    · rename_i hy
      have hby : b = 'y' := by simpa using hy
      subst hby
      split
      · exact ⟨u, hu, hulen, by rw [huun, nl_unmark_set s _ 'y' 'Y' hb2 (by decide)]⟩
      · exact ⟨t, ht, hlen, hun⟩
    · exact ⟨t, ht, hlen, hun⟩

theorem nl_markILoop_unmark :
    ∀ (n : Nat) (i : Int) (s : List Char), 1 ≤ i → i + (n : Int) ≤ (s.length : Int) →
      ∃ t, markILoop n i s = some t ∧ t.length = s.length ∧ unmark t = unmark s := by
  intro n
  induction n with
  | zero => intro i s _ _; exact ⟨s, rfl, rfl, rfl⟩
  | succ n ih =>
    intro i s hi hn
    obtain ⟨b, hb, hb2⟩ := idx_eq_some s i (by omega) (by omega)
    obtain ⟨v, hv⟩ := nl_isVowelAt_total s (i - 1)
    obtain ⟨w, hw⟩ := nl_isVowelAt_total s (i + 1)
    have hset := setAt_eq s i 'I' (by omega) (by omega)
    obtain ⟨t, ht, hlen, hun⟩ := ih (i + 1) s (by omega) (by omega)
    obtain ⟨u, hu, hulen, huun⟩ := ih (i + 1) (s.set i.toNat 'I') (by omega)
      (by rw [List.length_set]; omega)
    rw [List.length_set] at hulen
    simp only [markILoop, hv, hw, hb, hset, Option.bind_eq_bind, Option.some_bind]
    split
    · rename_i hy
      have hby : b = 'i' := by simpa using hy
      subst hby
      split
      · split
        · exact ⟨u, hu, hulen, by rw [huun, nl_unmark_set s _ 'i' 'I' hb2 (by decide)]⟩
        · exact ⟨t, ht, hlen, hun⟩
      · exact ⟨t, ht, hlen, hun⟩
    · exact ⟨t, ht, hlen, hun⟩

theorem nl_prepare_unmark (word : List Char) :
    ∃ s, prepare word = some s ∧ s.length = word.length ∧
      unmark s = unmark (word.map foldAccent) := by
  unfold prepare
  simp only []
  have hm : (word.map foldAccent).length = word.length := List.length_map _ _
  by_cases h0 : (word.map foldAccent).length > 0
  · obtain ⟨c, hc, hc2⟩ := idx_eq_some (word.map foldAccent) 0 le_rfl (by omega)
    have hset := setAt_eq (word.map foldAccent) 0 'Y' le_rfl (by omega)
    simp only [h0, if_true, hc, Option.bind_eq_bind, Option.some_bind]
    obtain ⟨s1, hs1, hl1, hu1⟩ : ∃ s1, (if (c == 'y') = true then setAt (word.map foldAccent) 0 'Y'
        else some (word.map foldAccent)) = some s1 ∧ s1.length = word.length ∧
        unmark s1 = unmark (word.map foldAccent) := by
      split
      · rename_i hy
        have hcy : c = 'y' := by simpa using hy
        subst hcy
        exact ⟨_, hset, by simp, nl_unmark_set _ _ 'y' 'Y' hc2 (by decide)⟩
      · exact ⟨_, rfl, by simp, rfl⟩
    obtain ⟨s2, hs2, hl2, hu2⟩ := nl_markYLoop_unmark ((s1.length : Int) - 1).toNat 1 s1 le_rfl
      (by omega)
    obtain ⟨s3, hs3, hl3, hu3⟩ := nl_markILoop_unmark ((s2.length : Int) - 1 - 1).toNat 1 s2
      le_rfl (by omega)
    simp only [hs1, hs2, hs3, Option.some_bind]
    exact ⟨s3, rfl, by omega, by rw [hu3, hu2, hu1]⟩
  · have hnil : word = [] := by
      cases word with
      | nil => rfl
      | cons a w => simp at h0
    subst hnil
    exact ⟨[], by decide, rfl, rfl⟩

end dutch

namespace dutch

theorem nl_getR1R2_short (s : List Char) (h : s.length < 4) :
    getR1R2 s = some ((s.length : Int), (s.length : Int)) := by
  obtain ⟨a, ha, ha0, ha1, ha2⟩ := nl_calcR_spec s
  obtain ⟨b, hb, hb0, hb1, hb2⟩ := nl_calcR_spec (s.drop a.toNat)
  rw [List.length_drop] at hb1 hb2
  have hr1 : adjustR1 s a = (s.length : Int) := by
    unfold adjustR1
    split_ifs <;> omega
  have hr2 : a + b = (s.length : Int) := by omega
  simp only [getR1R2, ha, hb, sliceFrom_eq s a ha0 ha1, Option.bind_eq_bind,
    Option.some_bind, hr1, hr2]

theorem nl_firstSuffixPos_lt (s : List Char) :
    ∀ sufs : List (List Char), (∀ suf ∈ sufs, 1 ≤ suf.length) →
      ∃ i, firstSuffixPos s sufs = some i ∧ (i = -1 ∨ (0 ≤ i ∧ i < (s.length : Int))) := by
  intro sufs
  induction sufs with
  | nil => intro _; exact ⟨-1, rfl, Or.inl rfl⟩
  | cons suf rest ih =>
    intro hs
    obtain ⟨i, hi, hb⟩ := ih (fun x hx => hs x (List.mem_cons_of_mem _ hx))
    have h1 := suffixIndex_bounds s suf
    have h2 := hs suf (List.mem_cons_self _ _)
    simp only [firstSuffixPos, suffixPos_eq, Option.bind_eq_bind, Option.some_bind, hi]
    split
    · exact ⟨_, rfl, by omega⟩
    · exact ⟨i, rfl, hb⟩

theorem nl_step1_short (s : List Char) (h : s.length < 4) :
    step1 s (s.length : Int) = some s := by
  have hh := suffixIndex_len s "heden".toList 5 rfl
  obtain ⟨i, hi, hib⟩ := nl_firstSuffixPos_lt s ["ene".toList, "en".toList] (by decide)
  obtain ⟨j, hj, hjb⟩ := nl_firstSuffixPos_lt s ["se".toList, "s".toList] (by decide)
  have h1 : ¬ (suffixIndex s "heden".toList ≥ 0) := by omega
  have h2 : ¬ (i ≥ (s.length : Int)) := by omega
  have h3 : ¬ (j ≥ (s.length : Int)) := by omega
  simp only [step1, suffixPos_eq, hi, hj, deleteEn, h1, h2, h3, if_false,
    Option.bind_eq_bind, Option.some_bind]
  split <;> (try split) <;> rfl

theorem nl_step2_short (s : List Char) :
    step2 s (s.length : Int) = some (s, false) := by
  have h1 : ¬ ((s.length : Int) - 1 ≥ (s.length : Int)) := by omega
  simp only [step2, deleteESuffixPrecededByNonVowel, h1, if_false, Option.bind_eq_bind,
    Option.some_bind, Bool.false_eq_true]

theorem nl_step3Heid_short (s : List Char) (h : s.length < 4) :
    step3Heid s (s.length : Int) (s.length : Int) = some s := by
  have hh := suffixIndex_len s "heid".toList 4 rfl
  have h1 : ¬ (suffixIndex s "heid".toList ≥ (s.length : Int)) := by omega
  simp only [step3Heid, suffixPos_eq, h1, if_false, Option.bind_eq_bind, Option.some_bind]

theorem nl_step3Rest_short (s : List Char) (h : s.length < 4) :
    step3Rest s (s.length : Int) (s.length : Int) false = some s := by
  obtain ⟨i, hi, hib⟩ := nl_firstSuffixPos_lt s ["end".toList, "ing".toList] (by decide)
  have hig := suffixIndex_len s "ig".toList 2 rfl
  have hlijk := suffixIndex_len s "lijk".toList 4 rfl
  have hbaar := suffixIndex_len s "baar".toList 4 rfl
  have h1 : ¬ (i ≥ (s.length : Int)) := by omega
  have h2 : ¬ (suffixIndex s "ig".toList ≥ (s.length : Int)) := by omega
  have h3 : ¬ (suffixIndex s "lijk".toList ≥ 0) := by omega
  have h4 : ¬ (suffixIndex s "baar".toList ≥ 0) := by omega
  simp only [step3Rest, suffixPos_eq, hi, igDeletable, h1, h2, h3, h4, if_false,
    Option.bind_eq_bind, Option.some_bind, Bool.false_and, Bool.false_eq_true]
  split <;> (try split) <;> (try split) <;> rfl

theorem nl_Stem_short (lower : Char → Char) (word : List Char) (h : word.length < 4) :
    ∃ s, prepare (word.map lower) = some s ∧ s.length = word.length ∧
      getR1R2 s = some ((s.length : Int), (s.length : Int)) ∧
      Stem lower word = some (unmark ((word.map lower).map foldAccent)) := by
  obtain ⟨s, hs, hlen, hun⟩ := nl_prepare_unmark (word.map lower)
  rw [List.length_map] at hlen
  have hl : s.length < 4 := by omega
  have hr := nl_getR1R2_short s hl
  refine ⟨s, hs, hlen, hr, ?_⟩
  simp only [Stem, hs, hr, nl_step1_short s hl, nl_step2_short s, nl_step3Heid_short s hl,
    nl_step3Rest_short s hl, nl_step4_short s hl, Option.bind_eq_bind, Option.some_bind, hun]

end dutch

theorem toLower_ne_upper_i (c : Char) : Char.toLower c ≠ 'I' := by
  unfold Char.toLower
  simp only []
  split
  · intro h
    have h2 := congrArg Char.toNat h
    rw [toNat_ofNat_small _ (by omega)] at h2
    have : ('I' : Char).toNat = 73 := rfl
    omega
  · rename_i hn
    intro h
    apply hn
    rw [h]
    decide

/-! ## The claims -/

/-- C1. English `Stem` is total: for every lowercasing map and every input word
(every list of code points: the empty word, punctuation, apostrophes, a leading
apostrophe) all checked index reads, slices and assignments of the embedding succeed,
so `Stem` returns a result. -/
theorem english_stem_total (lower : Char → Char) (word : List Char) :
    ∃ r, porter2.Stem lower word = some r := by
  unfold porter2.Stem
  simp only []
  split
  · exact ⟨_, rfl⟩
  · split
    · exact ⟨_, rfl⟩
    · obtain ⟨t, ht, -⟩ := porter2.stemBody_spec (word.map lower) (by omega)
      exact ⟨t, ht⟩

/-- C2. Dutch `Stem` is total: for every lowercasing map and every input word (the
empty one included) all checked index reads, slices and assignments of the embedding
succeed, so `Stem` returns a result. -/
theorem dutch_stem_total (lower : Char → Char) (word : List Char) :
    ∃ r, dutch.Stem lower word = some r := by
  obtain ⟨s, hs⟩ := dutch.nl_Stem_spec lower word
  exact ⟨_, hs⟩

/-- C3. For every key/value pair `(k, v)` of the English irregular-forms table
`exceptions1`, `Stem(k) = v`: the lookup answers before the rule pipeline runs.  The
lowercasing map is assumed to leave the letters `a` ... `z` unchanged, as
`strings.ToLower` does. -/
theorem english_exceptions1_stem (lower : Char → Char)
    (hl : ∀ c : Char, 97 ≤ c.toNat → c.toNat ≤ 122 → lower c = c)
    (k v : List Char) (h : (k, v) ∈ porter2.exceptions1) :
    porter2.exceptions1.lookup k = some v ∧ porter2.Stem lower k = some v := by
  have hkeys : ∀ p ∈ porter2.exceptions1,
      isLowerAscii p.1 = true ∧ porter2.exceptions1.lookup p.1 = some p.2 ∧
        porter2.Stem id p.1 = some p.2 := by decide
  obtain ⟨h1, h2, h3⟩ := hkeys (k, v) h
  rw [porter2.Stem_of_fixed lower k (map_lower_fixed lower hl k h1)]
  exact ⟨h2, h3⟩

theorem english_exceptions1_stem_witness :
    porter2.Stem Char.toLower "skies".toList = some "sky".toList ∧
      porter2.Stem Char.toLower "dying".toList = some "die".toList :=
  ⟨(english_exceptions1_stem Char.toLower toLower_fixes_lower _ _ (by decide)).2,
   (english_exceptions1_stem Char.toLower toLower_fixes_lower _ _ (by decide)).2⟩

/-- C4. For every input `w` of at most 2 code points, English `Stem(w)` is the
lowercased `w`; no key of the exception table has so few code points, so the table
does not intercept such a word. -/
theorem english_short_word_unchanged (lower : Char → Char) (w : List Char)
    (hw : w.length ≤ 2) :
    porter2.Stem lower w = some (w.map lower) ∧
      porter2.exceptions1.lookup (w.map lower) = none := by
  have hlen : (w.map lower).length ≤ 2 := by rw [List.length_map]; exact hw
  have hnone : porter2.exceptions1.lookup (w.map lower) = none :=
    porter2.lookup_none_of_short _ hlen porter2.exceptions1 (by decide)
  refine ⟨?_, hnone⟩
  simp only [porter2.Stem, hnone, hlen, if_true]

theorem english_short_word_unchanged_witness :
    porter2.Stem Char.toLower "Is".toList = some "is".toList := by
  have h := (english_short_word_unchanged Char.toLower "Is".toList (by decide)).1
  have hm : "Is".toList.map Char.toLower = "is".toList := by decide
  rw [hm] at h
  exact h

/-- C5. For every buffer `s` the English region calculator returns a pair
`(r1, r2)` with `0 ≤ r1 ≤ r2 ≤ length(s)`, whether or not `s` starts with one of the
prefixes `gener`, `commun`, `arsen`. -/
theorem english_regions_ordered (s : List Char) :
    ∃ r1 r2, porter2.getR1R2 s = some (r1, r2) ∧
      0 ≤ r1 ∧ r1 ≤ r2 ∧ r2 ≤ (s.length : Int) := by
  obtain ⟨r1, r2, h, h0, h1, h2, -⟩ := porter2.getR1R2_spec s
  exact ⟨r1, r2, h, h0, h1, h2⟩

/-- C6. For every buffer `s` the Dutch region calculator returns a pair `(r1, r2)`
with `0 ≤ r1 ≤ r2 ≤ length(s)`, where `r1` is the value after the `adjustR1` clamp
and `r2` was computed from the unclamped value. -/
theorem dutch_regions_ordered (s : List Char) :
    ∃ r1 r2, dutch.getR1R2 s = some (r1, r2) ∧
      0 ≤ r1 ∧ r1 ≤ r2 ∧ r2 ≤ (s.length : Int) := by
  obtain ⟨r1, r2, h, h0, h1, h2, -⟩ := dutch.nl_getR1R2_spec s
  exact ⟨r1, r2, h, h0, h1, h2⟩

/-- C7. English `Stem` maps the documented example words to the documented stems:
caresses, ponies, ties, feed, agreed from the specification and cries, cry, by, say
from the comments of steps 1a and 1c.  The lowercasing map is assumed to leave the
letters `a` ... `z` unchanged, as `strings.ToLower` does. -/
theorem english_documented_examples (lower : Char → Char)
    (hl : ∀ c : Char, 97 ≤ c.toNat → c.toNat ≤ 122 → lower c = c) :
    porter2.Stem lower "caresses".toList = some "caress".toList ∧
    porter2.Stem lower "ponies".toList = some "poni".toList ∧
    porter2.Stem lower "ties".toList = some "tie".toList ∧
    porter2.Stem lower "feed".toList = some "feed".toList ∧
    porter2.Stem lower "agreed".toList = some "agre".toList ∧
    porter2.Stem lower "cries".toList = some "cri".toList ∧
    porter2.Stem lower "cry".toList = some "cri".toList ∧
    porter2.Stem lower "by".toList = some "by".toList ∧
    porter2.Stem lower "say".toList = some "say".toList := by
  have hfix : ∀ w : List Char, isLowerAscii w = true →
      porter2.Stem lower w = porter2.Stem id w :=
    fun w hw => porter2.Stem_of_fixed lower w (map_lower_fixed lower hl w hw)
  refine ⟨?_, ?_, ?_, ?_, ?_, ?_, ?_, ?_, ?_⟩ <;>
    (rw [hfix _ (by decide)]; decide)

theorem english_documented_examples_witness :
    porter2.Stem Char.toLower "caresses".toList = some "caress".toList ∧
      porter2.Stem Char.toLower "agreed".toList = some "agre".toList :=
  have h := english_documented_examples Char.toLower toLower_fixes_lower
  ⟨h.1, h.2.2.2.2.1⟩

/-- C8. Dutch `Stem("vliegtuigen") = "vliegtuig"`, and `Stem("heden")` is `heden`, not
`heid`: on the standalone word the suffix `heden` starts at index 0, before
`R1 = 3`, so the rule of step 1 group a does not fire.  The lowercasing map is
assumed to leave the letters `a` ... `z` unchanged, as `strings.ToLower` does. -/
theorem dutch_documented_examples (lower : Char → Char)
    (hl : ∀ c : Char, 97 ≤ c.toNat → c.toNat ≤ 122 → lower c = c) :
    dutch.Stem lower "vliegtuigen".toList = some "vliegtuig".toList ∧
    dutch.Stem lower "heden".toList = some "heden".toList ∧
    dutch.Stem lower "heden".toList ≠ some "heid".toList ∧
    dutch.getR1R2 "heden".toList = some (3, 5) ∧
    suffixPos "heden".toList "heden".toList = some 0 := by
  have h1 : "vliegtuigen".toList.map lower = "vliegtuigen".toList :=
    map_lower_fixed lower hl _ (by decide)
  have h2 : "heden".toList.map lower = "heden".toList :=
    map_lower_fixed lower hl _ (by decide)
  have e1 : dutch.Stem lower "vliegtuigen".toList = some "vliegtuig".toList := by
    simp only [dutch.Stem, h1]; decide
  have e2 : dutch.Stem lower "heden".toList = some "heden".toList := by
    simp only [dutch.Stem, h2]; decide
  refine ⟨e1, e2, ?_, by decide, by decide⟩
  rw [e2]
  decide

theorem dutch_documented_examples_witness :
    dutch.Stem Char.toLower "vliegtuigen".toList = some "vliegtuig".toList ∧
      dutch.Stem Char.toLower "heden".toList ≠ some "heid".toList :=
  have h := dutch_documented_examples Char.toLower toLower_fixes_lower
  ⟨h.1, h.2.2.1⟩

/-- C9. For every word `w` of the step-boundary exception set `exceptions2`,
`Stem(w) = w`: the marking pass, step 0 and step 1a leave `w` unchanged, the check at
the label `step1b` finds it in the set, and it is returned there.  The lowercasing map
is assumed to leave the letters `a` ... `z` unchanged, as `strings.ToLower` does. -/
theorem english_exceptions2_stem (lower : Char → Char)
    (hl : ∀ c : Char, 97 ≤ c.toNat → c.toNat ≤ 122 → lower c = c)
    (w : List Char) (h : w ∈ porter2.exceptions2) :
    porter2.Stem lower w = some w ∧
      porter2.markYLoop ((w.length : Int) - 1).toNat 1 w = some w ∧
      porter2.step0 w = some w ∧ porter2.step1a w = some w ∧
      porter2.exceptions2.contains w = true := by
  have hall : ∀ v ∈ porter2.exceptions2,
      isLowerAscii v = true ∧ porter2.Stem id v = some v ∧
        porter2.markYLoop ((v.length : Int) - 1).toNat 1 v = some v ∧
        porter2.step0 v = some v ∧ porter2.step1a v = some v ∧
        porter2.exceptions2.contains v = true := by decide
  obtain ⟨h1, h2, h3⟩ := hall w h
  rw [porter2.Stem_of_fixed lower w (map_lower_fixed lower hl w h1)]
  exact ⟨h2, h3⟩

theorem english_exceptions2_stem_witness :
    porter2.Stem Char.toLower "herring".toList = some "herring".toList :=
  (english_exceptions2_stem Char.toLower toLower_fixes_lower "herring".toList (by decide)).1

/-- C10. The string returned by `Stem` contains no marker character on any return
path.  English: the result has no `Y`, whether it comes from the table `exceptions1`,
from the length guard, from the early return for `exceptions2` or from the label
`final`.  Dutch: the result has no `Y` and no `I`.  The lowercasing map is assumed
never to produce `Y`, as `strings.ToLower` never does; only the English length
guard, which returns the lowercased word as it is, depends on that. -/
theorem stem_result_has_no_marker (lower : Char → Char) (hY : ∀ c, lower c ≠ 'Y')
    (word : List Char) :
    (∃ r, porter2.Stem lower word = some r ∧ 'Y' ∉ r) ∧
      (∃ r, dutch.Stem lower word = some r ∧ 'Y' ∉ r ∧ 'I' ∉ r) := by
  refine ⟨porter2.Stem_spec lower hY word, ?_⟩
  obtain ⟨s, hs⟩ := dutch.nl_Stem_spec lower word
  exact ⟨_, hs, dutch.nl_unmark_no_marker s⟩

theorem stem_result_has_no_marker_witness :
    (∃ r, porter2.Stem Char.toLower "YOYO".toList = some r ∧ 'Y' ∉ r) ∧
      (∃ r, dutch.Stem Char.toLower "YOYO".toList = some r ∧ 'Y' ∉ r ∧ 'I' ∉ r) :=
  stem_result_has_no_marker Char.toLower toLower_ne_upper_y "YOYO".toList

/-- C11. English `Stem` is not idempotent: `Stem("agreed") = "agre"` and
`Stem("agre") = "agr"`, so stemming the stem of `agreed` changes it again (step 5
deletes the final `e`, which is in R1 and not preceded by a short syllable).  The
lowercasing map is assumed to leave the letters `a` ... `z` unchanged, as
`strings.ToLower` does. -/
theorem english_stem_not_idempotent (lower : Char → Char)
    (hl : ∀ c : Char, 97 ≤ c.toNat → c.toNat ≤ 122 → lower c = c) :
    ∃ w a b, porter2.Stem lower w = some a ∧ porter2.Stem lower a = some b ∧ b ≠ a ∧
      w = "agreed".toList ∧ a = "agre".toList ∧ b = "agr".toList := by
  have hfix : ∀ w : List Char, isLowerAscii w = true →
      porter2.Stem lower w = porter2.Stem id w :=
    fun w hw => porter2.Stem_of_fixed lower w (map_lower_fixed lower hl w hw)
  refine ⟨"agreed".toList, "agre".toList, "agr".toList, ?_, ?_, by decide, rfl, rfl, rfl⟩
  · rw [hfix _ (by decide)]; decide
  · rw [hfix _ (by decide)]; decide

theorem english_stem_not_idempotent_witness :
    ∃ w a b, porter2.Stem Char.toLower w = some a ∧ porter2.Stem Char.toLower a = some b ∧
      b ≠ a ∧ w = "agreed".toList ∧ a = "agre".toList ∧ b = "agr".toList :=
  english_stem_not_idempotent Char.toLower toLower_fixes_lower

/-- C12. For every buffer `s`, `calcR(s)` (English and Dutch) is `i + 2` for the
smallest index `i` such that `s[i]` is a vowel and `s[i+1]` exists and is not a
vowel, and is `length(s)` when there is no such index.  The marker `Y` (and the Dutch
marker `I`) is not a vowel. -/
theorem calcR_first_vowel_then_nonvowel (s : List Char) :
    (∃ r, porter2.calcR s = some r ∧
      ((∃ i, vowelThenNon porter2.isVowel s i = true ∧
          (∀ j, j < i → vowelThenNon porter2.isVowel s j = false) ∧ r = (i : Int) + 2) ∨
        ((∀ j, vowelThenNon porter2.isVowel s j = false) ∧ r = (s.length : Int)))) ∧
    (∃ r, dutch.calcR s = some r ∧
      ((∃ i, vowelThenNon dutch.isVowel s i = true ∧
          (∀ j, j < i → vowelThenNon dutch.isVowel s j = false) ∧ r = (i : Int) + 2) ∨
        ((∀ j, vowelThenNon dutch.isVowel s j = false) ∧ r = (s.length : Int)))) ∧
    porter2.isVowel 'Y' = false ∧ dutch.isVowel 'Y' = false ∧ dutch.isVowel 'I' = false :=
  ⟨porter2.calcR_first s, dutch.nl_calcR_first s, by decide, by decide, by decide⟩

/-- C13. English step 0 on the buffer `ab''s`: the first (longest) matching suffix is
`'s`, and removing it alone gives `ab'`; the three successive `removeSuffix` calls of
step 0 remove `'s` and then `'`, and give `ab`.  On `ab''s's'` they remove three
suffixes.  `Stem` returns `ab` for the word `ab''s`. -/
theorem english_step0_removes_more_than_one :
    porter2.removeSuffix "ab''s".toList "'s'".toList = some "ab''s".toList ∧
    porter2.removeSuffix "ab''s".toList "'s".toList = some "ab'".toList ∧
    porter2.step0 "ab''s".toList = some "ab".toList ∧
    porter2.step0 "ab''s's'".toList = some "ab".toList ∧
    porter2.Stem Char.toLower "ab''s".toList = some "ab".toList := by
  decide

/-- C14. In each English suffix table (`step2Words`, `step3Words`, `step4Words`) no
entry is preceded by one of its own proper suffixes, so for every buffer `s` the first
table entry that is a suffix of `s` is the longest table entry that is a suffix of
`s`.  The table loop of a step stops at that entry; when an entry matches, the result
of the step is fixed by that entry alone (replace or delete when the match starts at
or after the region boundary, otherwise leave the buffer as it is), so the separately
handled suffixes `ogi`, `li`, `ative`, `ion` are not tried; the loop falls through to
them exactly when no entry matches. -/
theorem english_tables_longest_first (s : List Char) :
    (suffixOrdered porter2.step2Words = true ∧ suffixOrdered porter2.step3Words = true ∧
      suffixOrdered porter2.step4Words = true) ∧
    (∀ table ∈ [porter2.step2Words, porter2.step3Words, porter2.step4Words],
      ∀ e, firstMatch table s = some e →
        e <:+ s ∧ e ∈ table ∧ ∀ f ∈ table, f <:+ s → f.length ≤ e.length) ∧
    (∃ r1 r2, porter2.getR1R2 s = some (r1, r2) ∧
      ((firstMatch porter2.step2Words s = none ∧
          porter2.replaceLoop s r1 porter2.step2Reps porter2.step2Words 0 = some none) ∨
        (∃ (e : List Char) (k : Nat) (rep : List Char), firstMatch porter2.step2Words s = some e ∧
          porter2.step2Words[k]? = some e ∧ porter2.step2Reps[k]? = some rep ∧
          porter2.step2 s = some (if r1 ≤ suffixIndex s e
            then s.take (suffixIndex s e).toNat ++ rep else s))) ∧
      ((firstMatch porter2.step3Words s = none ∧
          porter2.replaceLoop s r1 porter2.step3Reps porter2.step3Words 0 = some none) ∨
        (∃ (e : List Char) (k : Nat) (rep : List Char), firstMatch porter2.step3Words s = some e ∧
          porter2.step3Words[k]? = some e ∧ porter2.step3Reps[k]? = some rep ∧
          porter2.step3 s = some (if r1 ≤ suffixIndex s e
            then s.take (suffixIndex s e).toNat ++ rep else s))) ∧
      ((firstMatch porter2.step4Words s = none ∧
          porter2.deleteLoop s r2 porter2.step4Words = some none) ∨
        (∃ e, firstMatch porter2.step4Words s = some e ∧
          porter2.step4 s = some (if r2 ≤ suffixIndex s e
            then s.take (suffixIndex s e).toNat else s)))) := by
  have ho : suffixOrdered porter2.step2Words = true ∧ suffixOrdered porter2.step3Words = true ∧
      suffixOrdered porter2.step4Words = true := by decide
  refine ⟨ho, ?_, ?_⟩
  · intro table ht e he
    simp only [List.mem_cons, List.mem_singleton, List.not_mem_nil, or_false] at ht
    rcases ht with rfl | rfl | rfl
    · exact firstMatch_longest s _ ho.1 e he
    · exact firstMatch_longest s _ ho.2.1 e he
    · exact firstMatch_longest s _ ho.2.2 e he
  · obtain ⟨r1, r2, hr, -⟩ := porter2.getR1R2_spec s
    refine ⟨r1, r2, hr, ?_, ?_, ?_⟩
    · rcases porter2.replaceLoop_first s r1 porter2.step2Reps porter2.step2Words 0 (by decide)
        with h | ⟨e, k, rep, h1, h2, h3, h4⟩
      · exact Or.inl h
      · right
        rw [Nat.zero_add] at h3
        refine ⟨e, k, rep, h1, h2, h3, ?_⟩
        simp only [porter2.step2, hr, h4, Option.bind_eq_bind, Option.some_bind]
    · rcases porter2.replaceLoop_first s r1 porter2.step3Reps porter2.step3Words 0 (by decide)
        with h | ⟨e, k, rep, h1, h2, h3, h4⟩
      · exact Or.inl h
      · right
        rw [Nat.zero_add] at h3
        refine ⟨e, k, rep, h1, h2, h3, ?_⟩
        simp only [porter2.step3, hr, h4, Option.bind_eq_bind, Option.some_bind]
    · rcases porter2.deleteLoop_first s r2 porter2.step4Words with h | ⟨e, h1, h4⟩
      · exact Or.inl h
      · right
        refine ⟨e, h1, ?_⟩
        simp only [porter2.step4, hr, h4, Option.bind_eq_bind, Option.some_bind]

/-- C15. For every Dutch buffer `s`, the R1 returned by `getR1R2` is
`max(calcR(s), 3)`, hence at least 3, when `length(s) ≥ 4`, and is `length(s)` when
`length(s) < 4`. -/
theorem dutch_r1_clamped (s : List Char) :
    ∃ c r1 r2, dutch.calcR s = some c ∧ dutch.getR1R2 s = some (r1, r2) ∧
      (4 ≤ s.length → r1 = max c 3 ∧ 3 ≤ r1) ∧
      (s.length < 4 → r1 = (s.length : Int)) := by
  obtain ⟨a, ha, ha0, ha1, ha2⟩ := dutch.nl_calcR_spec s
  obtain ⟨b, hb, -⟩ := dutch.nl_calcR_spec (s.drop a.toNat)
  refine ⟨a, dutch.adjustR1 s a, a + b, ha, ?_, ?_, ?_⟩
  · simp only [dutch.getR1R2, ha, hb, sliceFrom_eq s a ha0 ha1, Option.bind_eq_bind,
      Option.some_bind]
  · intro h4
    unfold dutch.adjustR1
    split_ifs <;> omega
  · intro h4
    unfold dutch.adjustR1
    split_ifs <;> omega

/-- C16. English `getR1R2`: when the buffer starts with `gener`, `commun` or `arsen`,
R1 is the length of that prefix (5, 6, 5) and R2 = R1 + calcR(s[R1:]); for every
other buffer R1 = calcR(s) and R2 = R1 + calcR(s[R1:]). -/
theorem english_prefix_regions (s : List Char) :
    ("gener".toList.isPrefixOf s = true →
        ∃ r, porter2.calcR (s.drop 5) = some r ∧ porter2.getR1R2 s = some (5, 5 + r)) ∧
      ("commun".toList.isPrefixOf s = true →
        ∃ r, porter2.calcR (s.drop 6) = some r ∧ porter2.getR1R2 s = some (6, 6 + r)) ∧
      ("arsen".toList.isPrefixOf s = true →
        ∃ r, porter2.calcR (s.drop 5) = some r ∧ porter2.getR1R2 s = some (5, 5 + r)) ∧
      ((∀ v ∈ porter2.rExceptions, v.isPrefixOf s = false) →
        ∃ a b, porter2.calcR s = some a ∧ porter2.calcR (s.drop a.toNat) = some b ∧
          porter2.getR1R2 s = some (a, a + b)) := by
  have hlenp : ∀ v : List Char, v.isPrefixOf s = true → (v.length : Int) ≤ (s.length : Int) :=
    fun v hv => by
      have := (List.isPrefixOf_iff_prefix.mp hv).length_le
      omega
  refine ⟨?_, ?_, ?_, ?_⟩
  · intro hg
    obtain ⟨r, hr, -⟩ := porter2.calcR_spec (s.drop 5)
    have hs := sliceFrom_eq s 5 (by omega) (hlenp _ hg)
    refine ⟨r, hr, ?_⟩
    simp only [porter2.getR1R2, porter2.rExceptions, porter2.getR1R2Loop, hg, if_true,
      porter2.regionsFrom]
    have h5 : (("gener".toList.length : Nat) : Int) = 5 := rfl
    rw [h5, hs]
    simp only [Option.bind_eq_bind, Option.some_bind]
    have : (5 : Int).toNat = 5 := rfl
    rw [this, hr]
    rfl
  · intro hc
    have hg : "gener".toList.isPrefixOf s = false := by
      rw [Bool.eq_false_iff]
      intro hg
      exact prefixes_exclusive _ _ s hg hc (by decide) (by decide)
    obtain ⟨r, hr, -⟩ := porter2.calcR_spec (s.drop 6)
    have hs := sliceFrom_eq s 6 (by omega) (hlenp _ hc)
    refine ⟨r, hr, ?_⟩
    simp only [porter2.getR1R2, porter2.rExceptions, porter2.getR1R2Loop, hg, hc, if_true,
      porter2.regionsFrom]
    have h6 : (("commun".toList.length : Nat) : Int) = 6 := rfl
    rw [h6, hs]
    simp only [Option.bind_eq_bind, Option.some_bind]
    have : (6 : Int).toNat = 6 := rfl
    rw [this, hr]
    rfl
  · intro ha
    have hg : "gener".toList.isPrefixOf s = false := by
      rw [Bool.eq_false_iff]
      intro hg
      exact prefixes_exclusive _ _ s hg ha (by decide) (by decide)
    have hc : "commun".toList.isPrefixOf s = false := by
      rw [Bool.eq_false_iff]
      intro hc
      exact prefixes_exclusive _ _ s hc ha (by decide) (by decide)
    obtain ⟨r, hr, -⟩ := porter2.calcR_spec (s.drop 5)
    have hs := sliceFrom_eq s 5 (by omega) (hlenp _ ha)
    refine ⟨r, hr, ?_⟩
    simp only [porter2.getR1R2, porter2.rExceptions, porter2.getR1R2Loop, hg, hc, ha, if_true,
      porter2.regionsFrom]
    have h5 : (("arsen".toList.length : Nat) : Int) = 5 := rfl
    rw [h5, hs]
    simp only [Option.bind_eq_bind, Option.some_bind]
    have : (5 : Int).toNat = 5 := rfl
    rw [this, hr]
    rfl
  · intro hno
    have hg := hno "gener".toList (by decide)
    have hc := hno "commun".toList (by decide)
    have ha := hno "arsen".toList (by decide)
    obtain ⟨a, ha', ha0, ha1, -⟩ := porter2.calcR_spec s
    obtain ⟨b, hb, -⟩ := porter2.calcR_spec (s.drop a.toNat)
    refine ⟨a, b, ha', hb, ?_⟩
    simp only [porter2.getR1R2, porter2.rExceptions, porter2.getR1R2Loop, hg, hc, ha,
      porter2.regionsFrom, ha', sliceFrom_eq s a ha0 ha1, hb, Option.bind_eq_bind,
      Option.some_bind]
    rfl

theorem english_prefix_regions_witness :
    porter2.getR1R2 "generous".toList = some (5, 8) ∧
      porter2.getR1R2 "beautiful".toList = some (5, 7) := by
  constructor
  · obtain ⟨r, hr, h⟩ := (english_prefix_regions "generous".toList).1 (by decide)
    have hr2 : porter2.calcR ("generous".toList.drop 5) = some 3 := by decide
    rw [hr2] at hr
    cases hr
    exact h
  · obtain ⟨a, b, ha, hb, h⟩ := (english_prefix_regions "beautiful".toList).2.2.2 (by decide)
    have ha2 : porter2.calcR "beautiful".toList = some 5 := by decide
    rw [ha2] at ha
    cases ha
    have hb2 : porter2.calcR ("beautiful".toList.drop (5 : Int).toNat) = some 2 := by decide
    rw [hb2] at hb
    cases hb
    exact h

/-- C17. Dutch `undouble`: a buffer that ends in `kk`, `dd` or `tt` loses exactly its
last character, and every other buffer is returned unchanged. -/
theorem dutch_undouble_spec (s : List Char) :
    (∀ p c, s = p ++ [c, c] → (c = 'k' ∨ c = 'd' ∨ c = 't') →
        dutch.undouble s = some (p ++ [c]) ∧ (p ++ [c]).length + 1 = s.length) ∧
      ((¬ ∃ p c, s = p ++ [c, c] ∧ (c = 'k' ∨ c = 'd' ∨ c = 't')) →
        dutch.undouble s = some s) := by
  constructor
  · rintro p c rfl hc
    rw [dutch.nl_undouble_append]
    simp [hc]
  · intro hno
    by_cases h2 : 2 ≤ s.length
    · obtain ⟨p, a, b, rfl⟩ := exists_last_two s h2
      rw [dutch.nl_undouble_append]
      by_cases hc : (b = 'k' ∨ b = 'd' ∨ b = 't') ∧ a = b
      · exfalso
        apply hno
        obtain ⟨hb, rfl⟩ := hc
        exact ⟨p, a, rfl, hb⟩
      · rw [if_neg hc]
    · have hlt : s.length < 2 := by omega
      simp only [dutch.undouble, hlt, if_true]

theorem dutch_undouble_spec_witness :
    dutch.undouble "bedd".toList = some "bed".toList ∧
      dutch.undouble "bed".toList = some "bed".toList :=
  ⟨((dutch_undouble_spec "bedd".toList).1 "be".toList 'd' (by decide) (by decide)).1,
   (dutch_undouble_spec "bed".toList).2 (by
      rintro ⟨p, c, h, -⟩
      have h1 := congrArg List.reverse h
      simp only [List.reverse_append, List.reverse_cons, List.reverse_nil, List.nil_append,
        List.singleton_append, List.cons_append] at h1
      have h2 : "bed".toList.reverse = ['d', 'e', 'b'] := by decide
      rw [h2] at h1
      simp only [List.cons.injEq] at h1
      obtain ⟨hd, he, -⟩ := h1
      rw [← hd] at he
      exact absurd he (by decide))⟩

/-- C18. Dutch step 4 (vowel undoubling).  A buffer whose last four characters are
`C V V D`, with `V` one of `a`, `e`, `o`, `u`, `C` a non-vowel and `D` a non-vowel
other than the marked `I`, becomes the prefix followed by `C V D`: one of the two `V`
is removed.  Every other buffer is returned unchanged.  From the code comment:
`Stem("maan") = "man"` and `Stem("brood") = "brod"` (for a lowercasing map that
leaves the letters `a` ... `z` unchanged, as `strings.ToLower` does). -/
theorem dutch_step4_spec (lower : Char → Char)
    (hl : ∀ x : Char, 97 ≤ x.toNat → x.toNat ≤ 122 → lower x = x) (s : List Char) :
    (∀ p c v d, s = p ++ [c, v, v, d] → (v = 'a' ∨ v = 'e' ∨ v = 'o' ∨ v = 'u') →
        dutch.isVowel c = false → dutch.isVowel d = false → d ≠ 'I' →
        dutch.step4 s = some (p ++ [c, v, d]) ∧ (p ++ [c, v, d]).length + 1 = s.length) ∧
      ((¬ ∃ p c v d, s = p ++ [c, v, v, d] ∧ (v = 'a' ∨ v = 'e' ∨ v = 'o' ∨ v = 'u') ∧
          dutch.isVowel c = false ∧ dutch.isVowel d = false ∧ d ≠ 'I') →
        dutch.step4 s = some s) ∧
      (dutch.Stem lower "maan".toList = some "man".toList ∧
        dutch.Stem lower "brood".toList = some "brod".toList) := by
  refine ⟨?_, ?_, ?_⟩
  · rintro p c v d rfl hv hc hd hI
    rw [dutch.nl_step4_append]
    simp [hv, hc, hd, hI]
  · intro hno
    by_cases h4 : 4 ≤ s.length
    · obtain ⟨p, c, v1, v2, d, rfl⟩ := exists_last_four s h4
      rw [dutch.nl_step4_append]
      split
      · rename_i h
        exfalso
        apply hno
        obtain ⟨rfl, hv, hc, hd, hI⟩ := h
        exact ⟨p, c, v1, d, rfl, hv, hc, hd, hI⟩
      · rfl
    · exact dutch.nl_step4_short s (by omega)
  · have h1 : "maan".toList.map lower = "maan".toList := map_lower_fixed lower hl _ (by decide)
    have h2 : "brood".toList.map lower = "brood".toList :=
      map_lower_fixed lower hl _ (by decide)
    constructor
    · simp only [dutch.Stem, h1]; decide
    · simp only [dutch.Stem, h2]; decide

theorem dutch_step4_spec_witness :
    dutch.step4 "maan".toList = some "man".toList ∧
      dutch.Stem Char.toLower "maan".toList = some "man".toList ∧
      dutch.Stem Char.toLower "brood".toList = some "brod".toList :=
  have h := dutch_step4_spec Char.toLower toLower_fixes_lower "maan".toList
  ⟨(h.1 "".toList 'm' 'a' 'n' (by decide) (by decide) (by decide) (by decide)
      (by decide)).1, h.2.2.1, h.2.2.2⟩

/-- C19. English `Stem` never lengthens a word: for every input `w` the result has at
most as many code points as `w` (lowercasing keeps the number of code points).  Every
table replacement is no longer than the suffix it replaces, and the `e` appended by
the repair of step 1b follows a removal of at least two characters. -/
theorem english_stem_never_lengthens (lower : Char → Char) (w : List Char) :
    (∃ r, porter2.Stem lower w = some r ∧ r.length ≤ (w.map lower).length ∧
        r.length ≤ w.length) ∧
      (∀ p ∈ porter2.step2Words.zip porter2.step2Reps, p.2.length ≤ p.1.length) ∧
      (∀ p ∈ porter2.step3Words.zip porter2.step3Reps, p.2.length ≤ p.1.length) ∧
      (∀ suf ∈ porter2.step1bWords, 2 ≤ suf.length) := by
  obtain ⟨r, hr, hl⟩ := porter2.Stem_len lower w
  exact ⟨⟨r, hr, by rw [List.length_map]; exact hl, hl⟩, by decide, by decide, by decide⟩

/-- C20. For every input `w` of fewer than 4 code points, Dutch `Stem(w)` is the
lowercased `w` with the accented vowels of the folding table replaced by their plain
forms, and nothing is removed: R1 = R2 = length for such a word, so no suffix rule and
no undoubling applies.  The folding is pinned character by character: `ä á` become
`a`, `ë é` become `e`, `ï í` become `i`, `ö ó` become `o`, `ü ú` become `u`, and every
other character is kept as it is.  The lowercasing map is assumed never to produce the
marker characters `Y` and `I`, as `strings.ToLower` never does. -/
theorem dutch_short_word_only_folded (lower : Char → Char)
    (hm : ∀ c, lower c ≠ 'Y' ∧ lower c ≠ 'I') (w : List Char) (hw : w.length < 4) :
    dutch.Stem lower w = some ((w.map lower).map dutch.foldAccent) ∧
      ((w.map lower).map dutch.foldAccent).length = w.length ∧
      (∃ s, dutch.prepare (w.map lower) = some s ∧
        dutch.getR1R2 s = some ((s.length : Int), (s.length : Int))) ∧
      (dutch.foldAccent 'ä' = 'a' ∧ dutch.foldAccent 'ë' = 'e' ∧
        dutch.foldAccent 'ï' = 'i' ∧ dutch.foldAccent 'ö' = 'o' ∧
        dutch.foldAccent 'ü' = 'u' ∧ dutch.foldAccent 'á' = 'a' ∧
        dutch.foldAccent 'é' = 'e' ∧ dutch.foldAccent 'í' = 'i' ∧
        dutch.foldAccent 'ó' = 'o' ∧ dutch.foldAccent 'ú' = 'u') ∧
      (∀ c : Char, c ∉ ['ä', 'ë', 'ï', 'ö', 'ü', 'á', 'é', 'í', 'ó', 'ú'] →
        dutch.foldAccent c = c) ∧
      (∀ i : Nat, ∀ c : Char, w[i]? = some c →
        ∃ r, dutch.Stem lower w = some r ∧ r[i]? = some (dutch.foldAccent (lower c))) := by
  obtain ⟨s, hs, hlen, hr, hst⟩ := dutch.nl_Stem_short lower w hw
  have hfix : dutch.unmark ((w.map lower).map dutch.foldAccent)
      = (w.map lower).map dutch.foldAccent := by
    apply dutch.nl_unmark_fixed
    intro c hc
    obtain ⟨b, hb, rfl⟩ := List.mem_map.mp hc
    obtain ⟨a, -, rfl⟩ := List.mem_map.mp hb
    obtain ⟨h1, h2⟩ := hm a
    unfold dutch.foldAccent
    split_ifs <;> first | exact ⟨by decide, by decide⟩ | exact ⟨h1, h2⟩
  rw [hfix] at hst
  refine ⟨hst, by simp, ⟨s, hs, hr⟩, by decide, ?_, ?_⟩
  · intro c hc
    simp only [List.mem_cons, List.mem_singleton, List.not_mem_nil, or_false, not_or] at hc
    obtain ⟨h1, h2, h3, h4, h5, h6, h7, h8, h9, h10⟩ := hc
    simp [dutch.foldAccent, h1, h2, h3, h4, h5, h6, h7, h8, h9, h10]
  · intro i c hc
    refine ⟨_, hst, ?_⟩
    rw [List.getElem?_map, List.getElem?_map, hc]
    rfl

theorem dutch_short_word_only_folded_witness :
    dutch.Stem Char.toLower "Ja".toList = some "ja".toList ∧
      dutch.Stem Char.toLower "só".toList = some "so".toList ∧
      dutch.Stem Char.toLower "äëï".toList = some "aei".toList ∧
      dutch.Stem Char.toLower "öüá".toList = some "oua".toList ∧
      dutch.Stem Char.toLower "éíú".toList = some "eiu".toList := by
  have hm : ∀ c, Char.toLower c ≠ 'Y' ∧ Char.toLower c ≠ 'I' :=
    fun c => ⟨toLower_ne_upper_y c, toLower_ne_upper_i c⟩
  have h1 := (dutch_short_word_only_folded Char.toLower hm "Ja".toList (by decide)).1
  have h2 := (dutch_short_word_only_folded Char.toLower hm "só".toList (by decide)).1
  have h3 := (dutch_short_word_only_folded Char.toLower hm "äëï".toList (by decide)).1
  have h4 := (dutch_short_word_only_folded Char.toLower hm "öüá".toList (by decide)).1
  have h5 := (dutch_short_word_only_folded Char.toLower hm "éíú".toList (by decide)).1
  have e1 : ("Ja".toList.map Char.toLower).map dutch.foldAccent = "ja".toList := by decide
  have e2 : ("só".toList.map Char.toLower).map dutch.foldAccent = "so".toList := by decide
  have e3 : ("äëï".toList.map Char.toLower).map dutch.foldAccent = "aei".toList := by decide
  have e4 : ("öüá".toList.map Char.toLower).map dutch.foldAccent = "oua".toList := by decide
  have e5 : ("éíú".toList.map Char.toLower).map dutch.foldAccent = "eiu".toList := by decide
  rw [e1] at h1
  rw [e2] at h2
  rw [e3] at h3
  rw [e4] at h4
  rw [e5] at h5
  exact ⟨h1, h2, h3, h4, h5⟩
